import Mathlib

/-!
# Reaction InChI writer (`src/formats/rinchiformat.cpp`)

A shallow embedding of `TrimInChI` and `ReactionInChIFormat::WriteMolecule`.

* A C++ `char` is a `Char`; characters are ordered by their code, which is how
  `char_traits<char>::lt` and `strncmp` order them (as unsigned values).
* A `std::string` is the list of its characters.  `c_str` is the character array
  the string hands to C functions: its characters followed by the terminating NUL.
* A `const char *` into such an array is the part of the array from the pointer
  onwards; reading through a pointer that has left the array has no defined
  result, which the embedding reports as `none`.
* An output stream is the list of characters written to it so far.
* `WriteMolecule` is the method as the language defines it.  `WriteMoleculeIn`
  is the same method in a run whose memory behind the terminators is given, for
  what a run does after `TrimInChI` has read past a terminator.
-/

namespace OpenBabel

/-- The value of a `std::string`: its characters, terminator excluded. -/
abbrev CxxString := List Char

/-- The character `'\0'`. -/
def NUL : Char := Char.ofNat 0

/-- The array behind `std::string::c_str()`: the characters of `s`, then `'\0'`. -/
def c_str (s : CxxString) : List Char := s ++ [NUL]

/-- The C library's `strncmp(a, b, n)`: compares at most `n` characters and stops
after a shared `'\0'`; the result is zero exactly when no difference was met.
Beyond the end of an array the model reads `'\0'`, a place the comparison never
reaches in an array that ends with its terminator. -/
def strncmp : List Char → List Char → Nat → Int
  | _, _, 0 => 0
  | a, b, n + 1 =>
    if a.headD NUL ≠ b.headD NUL then ((a.headD NUL).toNat : Int) - ((b.headD NUL).toNat : Int)
    else if a.headD NUL = NUL then 0
    else strncmp a.tail b.tail n

/-- The loop of `TrimInChI` (lines 103-108).  The first argument is the array from
`p` onwards: `trimmed += *p; p++; if (*p == '\n' || *p == '\0') break;`. -/
def TrimInChI.loop : List Char → CxxString → Option CxxString
  | [], _ => none
  | [_], _ => none
  | c :: d :: rest, trimmed =>
    if d = '\n' ∨ d = NUL then some (trimmed ++ [c])
    else TrimInChI.loop (d :: rest) (trimmed ++ [c])

/-- The characters that do not end the loop of `TrimInChI`: those failing the
test `*p == '\n' || *p == '\0'` of line 106. -/
def copied (d : Char) : Bool := !decide (d = '\n' ∨ d = NUL)

/-- The function `TrimInChI` (lines 99-110): `p = inchi + 9`, then the loop. -/
def TrimInChI (inchi : List Char) : Option CxxString :=
  TrimInChI.loop (inchi.drop 9) []

/-- The comparison `a < b` of two `std::string`s: the first differing character
decides, and a proper prefix is less than the longer string. -/
def string_lt : CxxString → CxxString → Bool
  | [], [] => false
  | [], _ :: _ => true
  | _ :: _, [] => false
  | a :: as, b :: bs =>
    if a < b then true
    else if b < a then false
    else string_lt as bs

/-- The order `a <= b` on `std::string`, that is `!(b < a)`. -/
def string_le (a b : CxxString) : Prop := string_lt b a = false

instance string_le.decidable : DecidableRel string_le :=
  fun a b => inferInstanceAs (Decidable (string_lt b a = false))

/-- The call `std::sort(v.begin(), v.end())` of the C++ library on a vector of
strings: it leaves the elements of `v` in non-descending order of `operator<`.
For strings that order is total and equivalent elements are equal, so the
result is the same whichever algorithm the library runs (`std_sort_unique`);
the embedding computes it by insertion. -/
def std_sort (v : List CxxString) : List CxxString := v.insertionSort string_le

/-- What one pass through a loop body that can `return false` leaves behind. -/
inductive Flow (α : Type) where
  /-- A read outside a character array: no defined behaviour. -/
  | undefined : Flow α
  /-- The statement `return false;` was reached. -/
  | returnFalse : Flow α
  /-- Control goes on with the given state. -/
  | next : α → Flow α
  deriving DecidableEq

/-- Modelled from the spec: the class `OBReaction` of `openbabel/reaction.h`, which
is not among the sources.  The writer only counts and fetches its reactants,
products and agents, each an ordered collection of molecules. -/
structure OBReaction (Mol : Type) where
  /-- The molecules behind `NumReactants()` and `GetReactant(i)`. -/
  reactants : List Mol
  /-- The molecules behind `NumProducts()` and `GetProduct(i)`. -/
  products : List Mol
  /-- The molecules behind `NumAgents()` and `GetAgent(i)`. -/
  agents : List Mol

/-- The vector `inchis` of three string vectors (line 135). -/
structure Inchis where
  /-- The element `inchis[REACTANTS]`. -/
  reactants : List CxxString
  /-- The element `inchis[PRODUCTS]`. -/
  products : List CxxString
  /-- The element `inchis[AGENTS]`. -/
  agents : List CxxString
  deriving DecidableEq

/-- The index `REACTANTS` (line 131). -/
def REACTANTS : Nat := 0
/-- The index `PRODUCTS` (line 132). -/
def PRODUCTS : Nat := 1
/-- The index `AGENTS` (line 133). -/
def AGENTS : Nat := 2

/-- Reading `inchis[part]`. -/
def Inchis.get (inchis : Inchis) (part : Nat) : List CxxString :=
  if part = REACTANTS then inchis.reactants
  else if part = PRODUCTS then inchis.products
  else inchis.agents

/-- Assigning `inchis[part] = v`. -/
def Inchis.set (inchis : Inchis) (part : Nat) (v : List CxxString) : Inchis :=
  if part = REACTANTS then { inchis with reactants := v }
  else if part = PRODUCTS then { inchis with products := v }
  else { inchis with agents := v }

/-- The prefix literal of lines 98 and 155. -/
def inchiPrefix : CxxString := "InChI=1S/".toList

/-- The inner loop of lines 143-159 over the molecules of one part.  `Write mol`
is what `inchiconv.Write(mol)` left in the string stream `ss`, or `none` when it
returned false; `part_inchis` is `inchis[part]`. -/
def extractPart {Mol : Type} (Write : Mol → Option CxxString) :
    List Mol → List CxxString → Flow (List CxxString)
  | [], part_inchis => Flow.next part_inchis
  | mol :: rest, part_inchis =>
    match Write mol with
    | none => Flow.returnFalse
    | some inchi =>
      if strncmp (c_str inchi) (c_str inchiPrefix) 9 ≠ 0 then Flow.returnFalse
      else
        match TrimInChI (c_str inchi) with
        | none => Flow.undefined
        | some trimmed => extractPart Write rest (part_inchis ++ [trimmed])

/-- The outer loop of lines 135-160: parts 0, 1 and 2 in turn. -/
def extractInchis {Mol : Type} (Write : Mol → Option CxxString) (pReact : OBReaction Mol) :
    Flow Inchis :=
  match extractPart Write pReact.reactants [] with
  | Flow.undefined => Flow.undefined
  | Flow.returnFalse => Flow.returnFalse
  | Flow.next r =>
    match extractPart Write pReact.products [] with
    | Flow.undefined => Flow.undefined
    | Flow.returnFalse => Flow.returnFalse
    | Flow.next p =>
      match extractPart Write pReact.agents [] with
      | Flow.undefined => Flow.undefined
      | Flow.returnFalse => Flow.returnFalse
      | Flow.next a => Flow.next ⟨r, p, a⟩

/-- The loop of lines 169-184.  `products` is `inchis[PRODUCTS]`, the list argument
is `inchis[REACTANTS]` from `reactant_it` onwards (empty exactly when
`reactant_it` is the end iterator), and `product_it` is a position in `products`
(its length being the end iterator).  The result is the final `reactants_first`;
`none` stands for dereferencing an iterator outside the vector. -/
def directionLoop (products : List CxxString) : List CxxString → Nat → Option Bool
  | [], product_it => some (if product_it ≠ products.length then false else true)
  | reactant :: rest, product_it =>
    if product_it = products.length then some true
    else
      match products[product_it]? with
      | none => none
      | some product =>
        if string_lt reactant product then some false
        else directionLoop products rest (product_it + 1)

/-- Lines 166-184: `reactant_it` starts at `begin()`, `product_it` at `end()`. -/
def reactants_first (inchis : Inchis) : Option Bool :=
  directionLoop inchis.products inchis.reactants inchis.products.length

/-- The loops of lines 188-192, 195-199 and 201-205: the list argument is the
vector from `vit` onwards and `vit` is the position of its first element. -/
def writeComponents : List CxxString → Nat → List Char → List Char
  | [], _, ofs => ofs
  | component :: rest, vit, ofs =>
    writeComponents rest (vit + 1) ((if vit ≠ 0 then ofs ++ ['!'] else ofs) ++ component)

/-- Lines 186-207, with `inchis` sorted and `reactants_first` computed.  The
reference `rxn_components` is the index of the vector it is bound to, and the
assignment of line 194 stores into that vector.  The result is the three
vectors as line 207 leaves them, and the output stream. -/
def assembleRun (inchis : Inchis) (reactants_first : Bool) (ofs : List Char) :
    Inchis × List Char :=
  let ofs := ofs ++ "RInChI=1.00.1S/".toList
  let rxn_components := if reactants_first then REACTANTS else PRODUCTS
  let ofs := writeComponents (inchis.get rxn_components) 0 ofs
  let ofs := ofs ++ "<>".toList
  let inchis := inchis.set rxn_components
    (if reactants_first then inchis.get PRODUCTS else inchis.get REACTANTS)
  let ofs := writeComponents (inchis.get rxn_components) 0 ofs
  let ofs := ofs ++ "<>".toList
  let ofs := writeComponents (inchis.get AGENTS) 0 ofs
  (inchis, ofs ++ ['\n'])

/-- The output stream after lines 186-207. -/
def assemble (inchis : Inchis) (reactants_first : Bool) (ofs : List Char) : List Char :=
  (assembleRun inchis reactants_first ofs).2

/-- Lines 162-164: each of the three vectors is sorted on its own. -/
def sortInchis (inchis : Inchis) : Inchis :=
  ⟨std_sort inchis.reactants, std_sort inchis.products, std_sort inchis.agents⟩

/-- The method `ReactionInChIFormat::WriteMolecule` (lines 113-209).  `pOb` is the
result of the cast to `OBReaction*` (`none` for NULL), `pInChIFormat` the "inchi"
format found by the registry lookup (`none` for NULL) as the function that
writes one molecule, and `ofs` the output stream before the call.  The result is
the returned flag with the output stream after the call, or `none` when the run
has no defined behaviour. -/
def WriteMolecule {Mol : Type} (pOb : Option (OBReaction Mol))
    (pInChIFormat : Option (Mol → Option CxxString)) (ofs : List Char) :
    Option (Bool × List Char) :=
  match pOb with
  | none => some (false, ofs)
  | some pReact =>
    match pInChIFormat with
    | none => some (false, ofs)
    | some Write =>
      match extractInchis Write pReact with
      | Flow.undefined => none
      | Flow.returnFalse => some (false, ofs)
      | Flow.next inchis =>
        match reactants_first (sortInchis inchis) with
        | none => none
        | some first => some (true, assemble (sortInchis inchis) first ofs)

/-- The inner loop of lines 143-159 in a run whose memory is given.  The language
gives the read of `TrimInChI` past the terminator no result; a machine reads
what lies there.  `beyond earlier inchi` is what the memory holds right behind
the terminator of `inchi` when the molecules `earlier` have been handled, and
the memory is taken to hold a `'\0'` somewhere behind that.  `strncmp` stops at
the terminator at the latest and reads the array alone. -/
def extractPartIn {Mol : Type} (beyond : List Mol → CxxString → List Char)
    (Write : Mol → Option CxxString) :
    List Mol → List Mol → List CxxString → Flow (List CxxString)
  | [], _, part_inchis => Flow.next part_inchis
  | mol :: rest, earlier, part_inchis =>
    match Write mol with
    | none => Flow.returnFalse
    | some inchi =>
      if strncmp (c_str inchi) (c_str inchiPrefix) 9 ≠ 0 then Flow.returnFalse
      else
        match TrimInChI (c_str inchi ++ beyond earlier inchi ++ [NUL]) with
        | none => Flow.undefined
        | some trimmed =>
          extractPartIn beyond Write rest (earlier ++ [mol]) (part_inchis ++ [trimmed])

/-- The outer loop of lines 135-160 in a run whose memory is given. -/
def extractInchisIn {Mol : Type} (beyond : List Mol → CxxString → List Char)
    (Write : Mol → Option CxxString) (pReact : OBReaction Mol) : Flow Inchis :=
  match extractPartIn beyond Write pReact.reactants [] [] with
  | Flow.undefined => Flow.undefined
  | Flow.returnFalse => Flow.returnFalse
  | Flow.next r =>
    match extractPartIn beyond Write pReact.products pReact.reactants [] with
    | Flow.undefined => Flow.undefined
    | Flow.returnFalse => Flow.returnFalse
    | Flow.next p =>
      match extractPartIn beyond Write pReact.agents (pReact.reactants ++ pReact.products) [] with
      | Flow.undefined => Flow.undefined
      | Flow.returnFalse => Flow.returnFalse
      | Flow.next a => Flow.next ⟨r, p, a⟩

/-- The method `ReactionInChIFormat::WriteMolecule` (lines 113-209) in a run whose
memory is given: as `WriteMolecule`, with `beyond` telling what `TrimInChI`
finds behind a terminator. -/
def WriteMoleculeIn {Mol : Type} (beyond : List Mol → CxxString → List Char)
    (pOb : Option (OBReaction Mol)) (pInChIFormat : Option (Mol → Option CxxString))
    (ofs : List Char) : Option (Bool × List Char) :=
  match pOb with
  | none => some (false, ofs)
  | some pReact =>
    match pInChIFormat with
    | none => some (false, ofs)
    | some Write =>
      match extractInchisIn beyond Write pReact with
      | Flow.undefined => none
      | Flow.returnFalse => some (false, ofs)
      | Flow.next inchis =>
        match reactants_first (sortInchis inchis) with
        | none => none
        | some first => some (true, assemble (sortInchis inchis) first ofs)

/-- A memory in which every adapter output lies in the buffer that held the one
before it: behind the terminator of `inchi` are the characters of the previous
output that the shorter `inchi` did not overwrite.  The molecules are their own
adapter outputs here. -/
def sameBuffer (earlier : List CxxString) (inchi : CxxString) : List Char :=
  (earlier.getLast?.getD []).drop (inchi.length + 1)

/-- The molecule `mol` gets through lines 150-156 and `TrimInChI` returns `t`
for it: the identifier that line 157 appends for `mol`. -/
def Extracted {Mol : Type} (Write : Mol → Option CxxString) (mol : Mol) (t : CxxString) : Prop :=
  ∃ inchi, Write mol = some inchi ∧ inchiPrefix <+: inchi ∧ TrimInChI (c_str inchi) = some t

/-- The adapter output for `mol` is well formed: the call succeeds and what it
wrote begins with the nine characters of the prefix. -/
def WellFormed {Mol : Type} (Write : Mol → Option CxxString) (mol : Mol) : Prop :=
  ∃ inchi, Write mol = some inchi ∧ inchiPrefix <+: inchi

/-- The molecule `mol` is an offending one: the adapter call fails for it, or what
the adapter wrote does not begin with the nine characters of the prefix. -/
def Offending {Mol : Type} (Write : Mol → Option CxxString) (mol : Mol) : Prop :=
  Write mol = none ∨ ∃ inchi, Write mol = some inchi ∧ ¬ inchiPrefix <+: inchi

/-- What `TrimInChI` makes of the adapter output for `mol`, when there is one. -/
def trimmedOf {Mol : Type} (Write : Mol → Option CxxString) (mol : Mol) : Option CxxString :=
  (Write mol).bind (fun inchi => TrimInChI (c_str inchi))

/-- The reference race in the words of the specification, from position `i` on:
reactant `i` is set against product `|P| - 1 - i`; the first argument bounds the
number of steps (`|R| + 1` always suffices, see `referenceRace`). -/
def referenceRaceFrom (R P : List CxxString) : Nat → Nat → Bool
  | 0, _ => true
  | steps + 1, i =>
    if i = R.length then (if i < P.length then false else true)
    else if i = P.length then true
    else if string_lt (R.getD i []) (P.getD (P.length - 1 - i) []) then false
    else referenceRaceFrom R P steps (i + 1)

/-- The reference race of the specification between the sorted groups `R` and `P`. -/
def referenceRace (R P : List CxxString) : Bool := referenceRaceFrom R P (R.length + 1) 0

/-- The trim in the words of the specification: the part of `s` from index 9 up
to the first line terminator at or after index 9, or to the end of `s`. -/
def trimSpec (s : CxxString) : CxxString := (s.drop 9).takeWhile (fun d => !decide (d = '\n'))

/-- The loop of `TrimInChI` (lines 103-108) with a record of what it looks at:
`p` is the position in the array of the first character of the list argument,
and `tested` gathers the positions whose character the test of line 106 reads.
Line 104 reads position `p`, which is 9 at the start and a tested position
afterwards. -/
def TrimInChI.loopTested : List Char → Nat → CxxString → List Nat → Option (CxxString × List Nat)
  | [], _, _, _ => none
  | [_], _, _, _ => none
  | c :: d :: rest, p, trimmed, tested =>
    if d = '\n' ∨ d = NUL then some (trimmed ++ [c], tested ++ [p + 1])
    else TrimInChI.loopTested (d :: rest) (p + 1) (trimmed ++ [c]) (tested ++ [p + 1])

/-- The loop of lines 169-184 with a record of what it does: the number of
iterations begun and the positions at which `*product_it` is read. -/
def directionLoopTraced (products : List CxxString) :
    List CxxString → Nat → Nat → List Nat → Option Bool × Nat × List Nat
  | [], product_it, iterations, reads =>
    (some (if product_it ≠ products.length then false else true), iterations + 1, reads)
  | reactant :: rest, product_it, iterations, reads =>
    if product_it = products.length then (some true, iterations + 1, reads)
    else
      match products[product_it]? with
      | none => (none, iterations + 1, reads ++ [product_it])
      | some product =>
        if string_lt reactant product then (some false, iterations + 1, reads ++ [product_it])
        else directionLoopTraced products rest (product_it + 1) (iterations + 1)
          (reads ++ [product_it])

/-! ## The string order -/

theorem string_lt_irrefl (a : CxxString) : string_lt a a = false := by
  induction a with
  | nil => rfl
  | cons x xs ih => simp [string_lt, ih]

theorem string_lt_asymm : ∀ a b : CxxString, string_lt a b = true → string_lt b a = false
  | [], [], _ => rfl
  | [], _ :: _, _ => rfl
  | _ :: _, [], h => by simp [string_lt] at h
  | x :: xs, y :: ys, h => by
    rcases lt_trichotomy x y with hxy | hxy | hxy
    · simp [string_lt, hxy, lt_asymm hxy]
    · subst hxy
      simp [string_lt] at h ⊢
      exact string_lt_asymm xs ys h
    · simp [string_lt, hxy, lt_asymm hxy] at h

/-- The comparison `string_lt` is the lexicographic order of lists of characters. -/
theorem string_lt_iff_lt : ∀ a b : CxxString, string_lt a b = true ↔ List.lt a b
  | [], [] => by
    simp only [string_lt, Bool.false_eq_true, false_iff]
    intro h
    cases h
  | [], y :: ys => by
    simp only [string_lt, true_iff]
    exact List.lt.nil y ys
  | _ :: _, [] => by
    simp only [string_lt, Bool.false_eq_true, false_iff]
    intro h
    cases h
  | x :: xs, y :: ys => by
    have ih := string_lt_iff_lt xs ys
    rcases lt_trichotomy x y with hxy | hxy | hxy
    · simp only [string_lt, hxy, if_true, true_iff]
      exact List.lt.head xs ys hxy
    · subst hxy
      simp only [string_lt, lt_self_iff_false, if_false, ih]
      constructor
      · intro h
        exact List.lt.tail (lt_irrefl x) (lt_irrefl x) h
      · intro h
        cases h with
        | head _ _ h => exact absurd h (lt_irrefl x)
        | tail _ _ h => exact h
    · simp only [string_lt, lt_asymm hxy, hxy, if_false, if_true, Bool.false_eq_true, false_iff]
      intro h
      cases h with
      | head _ _ h => exact lt_asymm hxy h
      | tail _ h2 _ => exact h2 hxy
theorem string_le_antisymm : ∀ a b : CxxString, string_le a b → string_le b a → a = b
  | [], [], _, _ => rfl
  | [], _ :: _, _, h => by simp [string_le, string_lt] at h
  | _ :: _, [], h, _ => by simp [string_le, string_lt] at h
  | x :: xs, y :: ys, h₁, h₂ => by
    rcases lt_trichotomy x y with hxy | hxy | hxy
    · simp [string_le, string_lt, hxy, lt_asymm hxy] at h₂
    · subst hxy
      simp [string_le, string_lt] at h₁ h₂
      rw [string_le_antisymm xs ys h₁ h₂]
    · simp [string_le, string_lt, hxy, lt_asymm hxy] at h₁

theorem string_le_total (a b : CxxString) : string_le a b ∨ string_le b a := by
  unfold string_le
  cases h : string_lt b a with
  | false => exact Or.inl rfl
  | true => exact Or.inr (string_lt_asymm b a h)

theorem string_le_trans : ∀ a b c : CxxString, string_le a b → string_le b c → string_le a c
  | [], _, [], _, _ => by simp [string_le, string_lt]
  | [], _, _ :: _, _, _ => by simp [string_le, string_lt]
  | _ :: _, [], _, h, _ => by simp [string_le, string_lt] at h
  | _ :: _, _ :: _, [], _, h => by simp [string_le, string_lt] at h
  | x :: xs, y :: ys, z :: zs, h₁, h₂ => by
    have ih := string_le_trans xs ys zs
    simp only [string_le, string_lt] at h₁ h₂ ih ⊢
    rcases lt_trichotomy x y with hxy | hxy | hxy
    · rcases lt_trichotomy y z with hyz | hyz | hyz
      · have hxz := lt_trans hxy hyz
        simp [hxz, lt_asymm hxz]
      · subst hyz
        simp [hxy, lt_asymm hxy]
      · simp [hyz, lt_asymm hyz] at h₂
    · subst hxy
      rcases lt_trichotomy x z with hxz | hxz | hxz
      · simp [hxz, lt_asymm hxz]
      · subst hxz
        simp only [lt_self_iff_false, if_false] at h₁ h₂ ⊢
        exact ih h₁ h₂
      · simp [hxz, lt_asymm hxz] at h₂
    · simp [hxy, lt_asymm hxy] at h₁

/-! ## `std::sort` -/

theorem std_sort_perm (v : List CxxString) : (std_sort v).Perm v :=
  List.perm_insertionSort string_le v

theorem std_sort_sorted (v : List CxxString) : (std_sort v).Sorted string_le :=
  haveI : IsTotal CxxString string_le := ⟨string_le_total⟩
  haveI : IsTrans CxxString string_le := ⟨string_le_trans⟩
  List.sorted_insertionSort string_le v

/-- Any arrangement of `v` in non-descending order is the one `std_sort` computes. -/
theorem std_sort_unique (v w : List CxxString) (hp : w.Perm v) (hs : w.Sorted string_le) :
    w = std_sort v :=
  haveI : IsAntisymm CxxString string_le := ⟨string_le_antisymm⟩
  List.eq_of_perm_of_sorted (hp.trans (std_sort_perm v).symm) hs (std_sort_sorted v)

theorem std_sort_congr {v w : List CxxString} (hp : v.Perm w) : std_sort v = std_sort w :=
  std_sort_unique w (std_sort v) ((std_sort_perm v).trans hp) (std_sort_sorted v)

theorem std_sort_length (v : List CxxString) : (std_sort v).length = v.length :=
  (std_sort_perm v).length_eq

/-! ## `strncmp` against the prefix -/

theorem char_sub_eq_zero (a b : Char) (h : a ≠ b) : ((a.toNat : Int) - (b.toNat : Int)) ≠ 0 := by
  intro h0
  apply h
  have h1 : a.toNat = b.toNat := by omega
  apply Char.ext
  apply UInt32.ext
  exact h1

theorem strncmp_c_str (b : CxxString) (hb : NUL ∉ b) :
    ∀ s : CxxString, strncmp (c_str s) (c_str b) b.length = 0 ↔ b <+: s := by
  induction b with
  | nil => intro s; simp [strncmp]
  | cons y ys ih =>
    have hy : y ≠ NUL := fun h => hb (h ▸ List.mem_cons_self _ _)
    have hys : NUL ∉ ys := fun h => hb (List.mem_cons_of_mem _ h)
    intro s
    cases s with
    | nil =>
      have := char_sub_eq_zero NUL y (Ne.symm hy)
      simp [strncmp, c_str, Ne.symm hy, this]
    | cons x xs =>
      by_cases hxy : x = y
      · subst hxy
        have := ih hys xs
        simp only [c_str] at this
        simp [strncmp, c_str, hy, this, List.cons_prefix_cons]
      · have := char_sub_eq_zero x y hxy
        simp [strncmp, c_str, hxy, this, List.cons_prefix_cons, Ne.symm hxy]

theorem strncmp_inchiPrefix (s : CxxString) :
    strncmp (c_str s) (c_str inchiPrefix) 9 = 0 ↔ inchiPrefix <+: s :=
  strncmp_c_str inchiPrefix (by decide) s

/-! ## `TrimInChI` -/

theorem terminator_neg {d : Char} (hd : d = '\n' ∨ d = NUL) :
    ¬ copied d = true := by
  unfold copied
  rw [decide_eq_true hd]
  simp

theorem terminator_pos {d : Char} (hd : ¬ (d = '\n' ∨ d = NUL)) :
    copied d = true := by
  unfold copied
  rw [decide_eq_false hd]
  rfl

theorem TrimInChI.loop_eq (c : Char) :
    ∀ (rest : List Char) (trimmed : CxxString), (∃ d ∈ rest, d = '\n' ∨ d = NUL) →
      TrimInChI.loop (c :: rest) trimmed =
        some (trimmed ++ c :: rest.takeWhile copied) := by
  intro rest
  induction rest generalizing c with
  | nil => intro _ h; simp at h
  | cons d rest ih =>
    intro trimmed h
    by_cases hd : d = '\n' ∨ d = NUL
    · rw [TrimInChI.loop, if_pos hd, List.takeWhile_cons_of_neg (terminator_neg hd)]
    · have h' : ∃ e ∈ rest, e = '\n' ∨ e = NUL := by
        obtain ⟨e, he, hterm⟩ := h
        rcases List.mem_cons.1 he with rfl | he
        · exact absurd hterm hd
        · exact ⟨e, he, hterm⟩
      rw [TrimInChI.loop, if_neg hd, ih d (trimmed ++ [c]) h',
        List.takeWhile_cons_of_pos (terminator_pos hd)]
      simp

theorem takeWhile_append_NUL (l : List Char) :
    (l ++ [NUL]).takeWhile copied =
      l.takeWhile copied := by
  induction l with
  | nil => rw [List.nil_append, List.takeWhile_cons_of_neg (terminator_neg (Or.inr rfl))]; rfl
  | cons x xs ih =>
    by_cases hx : x = '\n' ∨ x = NUL
    · rw [List.cons_append, List.takeWhile_cons_of_neg (terminator_neg hx),
        List.takeWhile_cons_of_neg (terminator_neg hx)]
    · rw [List.cons_append, List.takeWhile_cons_of_pos (terminator_pos hx),
        List.takeWhile_cons_of_pos (terminator_pos hx), ih]

/-- What `TrimInChI` does with the array of a string of at least nine characters:
with nothing after the ninth it reads past the terminator; otherwise it copies
the tenth character untested and then the characters before the first
`'\n'` or `'\0'`. -/
theorem TrimInChI_c_str (s : CxxString) (h : 9 ≤ s.length) :
    TrimInChI (c_str s) =
      match s.drop 9 with
      | [] => none
      | c :: rest => some (c :: rest.takeWhile copied) := by
  have hdrop : (c_str s).drop 9 = s.drop 9 ++ [NUL] := by
    unfold c_str
    exact List.drop_append_of_le_length h
  unfold TrimInChI
  rw [hdrop]
  cases hs : s.drop 9 with
  | nil => simp [TrimInChI.loop]
  | cons c rest =>
    have hex : ∃ d ∈ rest ++ [NUL], d = '\n' ∨ d = NUL := ⟨NUL, by simp, Or.inr rfl⟩
    simp only [List.cons_append]
    rw [TrimInChI.loop_eq c (rest ++ [NUL]) [] hex, takeWhile_append_NUL]
    simp

theorem takeWhile_congr_mem (p q : Char → Bool) :
    ∀ l : List Char, (∀ d ∈ l, p d = q d) → l.takeWhile p = l.takeWhile q := by
  intro l
  induction l with
  | nil => intro _; rfl
  | cons x xs ih =>
    intro h
    have hx := h x (List.mem_cons_self _ _)
    have hxs := ih (fun d hd => h d (List.mem_cons_of_mem _ hd))
    simp only [List.takeWhile_cons, hx, hxs]

/-- When the character at index 9 is not a newline and no `'\0'` follows it
inside the string, `TrimInChI` returns the trim of the specification. -/
theorem TrimInChI_eq_trimSpec (s : CxxString) (c : Char) (rest : List Char)
    (hs : s.drop 9 = c :: rest) (hc : c ≠ '\n') (hnul : NUL ∉ rest) :
    TrimInChI (c_str s) = some (trimSpec s) := by
  have hlen : 9 ≤ s.length := by
    by_contra hlt
    rw [List.drop_of_length_le (by omega)] at hs
    cases hs
  rw [TrimInChI_c_str s hlen, hs]
  have hcopy : rest.takeWhile copied = rest.takeWhile (fun d => !decide (d = '\n')) := by
    apply takeWhile_congr_mem
    intro d hd
    have hd0 : d ≠ NUL := fun h => hnul (h ▸ hd)
    simp [copied, hd0]
  simp only [trimSpec, hs, hcopy]
  rw [List.takeWhile_cons_of_pos (by simp [hc])]

/-- An identifier extracted from an adapter output whose character at index 9
is not a newline holds no newline. -/
theorem TrimInChI_no_newline (s t : CxxString) (h9 : 9 ≤ s.length)
    (hc : (s.drop 9).head? ≠ some '\n') (hT : TrimInChI (c_str s) = some t) : '\n' ∉ t := by
  rw [TrimInChI_c_str s h9] at hT
  cases hs : s.drop 9 with
  | nil => simp [hs] at hT
  | cons c rest =>
    simp only [hs, Option.some.injEq] at hT
    subst hT
    have hc' : c ≠ '\n' := by
      intro h
      apply hc
      simp [hs, h]
    intro hmem
    rcases List.mem_cons.1 hmem with h | h
    · exact hc' h.symm
    · have := List.mem_takeWhile_imp h
      simp [copied] at this

/-! ## The extraction loop -/

theorem extractPart_next {Mol : Type} (Write : Mol → Option CxxString) :
    ∀ (mols : List Mol) (acc ids : List CxxString),
      extractPart Write mols acc = Flow.next ids →
        ∃ ts, List.Forall₂ (Extracted Write) mols ts ∧ ids = acc ++ ts := by
  intro mols
  induction mols with
  | nil =>
    intro acc ids h
    simp only [extractPart, Flow.next.injEq] at h
    exact ⟨[], List.Forall₂.nil, by simp [h]⟩
  | cons mol rest ih =>
    intro acc ids h
    rw [extractPart] at h
    cases hW : Write mol with
    | none => simp [hW] at h
    | some inchi =>
      simp only [hW] at h
      by_cases hpre : strncmp (c_str inchi) (c_str inchiPrefix) 9 = 0
      · simp only [hpre, ne_eq, not_true_eq_false, if_false] at h
        cases hT : TrimInChI (c_str inchi) with
        | none => simp [hT] at h
        | some t =>
          simp only [hT] at h
          obtain ⟨ts, hts, hids⟩ := ih _ _ h
          refine ⟨t :: ts, List.Forall₂.cons ⟨inchi, hW, (strncmp_inchiPrefix inchi).1 hpre, hT⟩ hts, ?_⟩
          simp [hids]
      · simp [hpre] at h

theorem extractPart_of_forall₂ {Mol : Type} (Write : Mol → Option CxxString) :
    ∀ (mols : List Mol) (ts acc : List CxxString), List.Forall₂ (Extracted Write) mols ts →
      extractPart Write mols acc = Flow.next (acc ++ ts) := by
  intro mols ts acc h
  induction h generalizing acc with
  | nil => simp [extractPart]
  | cons hx _ ih =>
    obtain ⟨inchi, hW, hpre, hT⟩ := hx
    rw [extractPart]
    simp only [hW, (strncmp_inchiPrefix inchi).2 hpre, ne_eq, not_true_eq_false, if_false, hT]
    rw [ih]
    simp

theorem extractPart_wellFormed {Mol : Type} (Write : Mol → Option CxxString) :
    ∀ (mols : List Mol) (acc : List CxxString), (∀ m ∈ mols, WellFormed Write m) →
      extractPart Write mols acc =
        if mols.all (fun m => (trimmedOf Write m).isSome) then
          Flow.next (acc ++ mols.filterMap (trimmedOf Write))
        else Flow.undefined := by
  intro mols
  induction mols with
  | nil => intro acc _; simp [extractPart]
  | cons mol rest ih =>
    intro acc hwf
    obtain ⟨inchi, hW, hpre⟩ := hwf mol (List.mem_cons_self _ _)
    have hrest : ∀ m ∈ rest, WellFormed Write m := fun m hm => hwf m (List.mem_cons_of_mem _ hm)
    rw [extractPart]
    simp only [hW, (strncmp_inchiPrefix inchi).2 hpre, ne_eq, not_true_eq_false, if_false]
    cases hT : TrimInChI (c_str inchi) with
    | none => simp [trimmedOf, hW, hT]
    | some t =>
      simp only [ih _ hrest]
      have ht : trimmedOf Write mol = some t := by simp [trimmedOf, hW, hT]
      simp [List.filterMap_cons, ht]

theorem extractInchis_next {Mol : Type} (Write : Mol → Option CxxString)
    (pReact : OBReaction Mol) (inchis : Inchis) (h : extractInchis Write pReact = Flow.next inchis) :
    List.Forall₂ (Extracted Write) pReact.reactants inchis.reactants ∧
    List.Forall₂ (Extracted Write) pReact.products inchis.products ∧
    List.Forall₂ (Extracted Write) pReact.agents inchis.agents := by
  unfold extractInchis at h
  cases hr : extractPart Write pReact.reactants [] with
  | undefined => simp [hr] at h
  | returnFalse => simp [hr] at h
  | next r =>
    cases hp : extractPart Write pReact.products [] with
    | undefined => simp [hr, hp] at h
    | returnFalse => simp [hr, hp] at h
    | next p =>
      cases ha : extractPart Write pReact.agents [] with
      | undefined => simp [hr, hp, ha] at h
      | returnFalse => simp [hr, hp, ha] at h
      | next a =>
        simp only [hr, hp, ha, Flow.next.injEq] at h
        subst h
        obtain ⟨tr, h1, e1⟩ := extractPart_next Write _ _ _ hr
        obtain ⟨tp, h2, e2⟩ := extractPart_next Write _ _ _ hp
        obtain ⟨ta, h3, e3⟩ := extractPart_next Write _ _ _ ha
        simp only [List.nil_append] at e1 e2 e3
        subst e1 e2 e3
        exact ⟨h1, h2, h3⟩

theorem extractInchis_of_forall₂ {Mol : Type} (Write : Mol → Option CxxString)
    (pReact : OBReaction Mol) (R P A : List CxxString)
    (hR : List.Forall₂ (Extracted Write) pReact.reactants R)
    (hP : List.Forall₂ (Extracted Write) pReact.products P)
    (hA : List.Forall₂ (Extracted Write) pReact.agents A) :
    extractInchis Write pReact = Flow.next ⟨R, P, A⟩ := by
  unfold extractInchis
  rw [extractPart_of_forall₂ Write _ _ [] hR, extractPart_of_forall₂ Write _ _ [] hP,
    extractPart_of_forall₂ Write _ _ [] hA]
  rfl

/-! ## The direction loop and the assembly -/

/-- The loop of lines 169-184 leaves `reactants_first` true from its start state. -/
theorem reactants_first_eq (inchis : Inchis) : reactants_first inchis = some true := by
  unfold reactants_first
  cases inchis.reactants with
  | nil => simp [directionLoop]
  | cons r rest => simp [directionLoop]

theorem writeComponents_succ :
    ∀ (v : List CxxString) (vit : Nat) (ofs : List Char),
      writeComponents v (vit + 1) ofs = ofs ++ (v.map (fun c => '!' :: c)).flatten := by
  intro v
  induction v with
  | nil => intro vit ofs; simp [writeComponents]
  | cons c rest ih => intro vit ofs; simp [writeComponents, ih]

theorem intercalate_cons (c : CxxString) :
    ∀ rest : List CxxString,
      List.intercalate ['!'] (c :: rest) = c ++ (rest.map (fun c => '!' :: c)).flatten := by
  intro rest
  induction rest generalizing c with
  | nil => simp [List.intercalate]
  | cons d rest ih =>
    have h := ih d
    simp only [List.intercalate] at h
    simp [List.intercalate, List.intersperse, h]

/-- Each writing loop puts out its vector joined by `!`. -/
theorem writeComponents_zero (v : List CxxString) (ofs : List Char) :
    writeComponents v 0 ofs = ofs ++ List.intercalate ['!'] v := by
  cases v with
  | nil => simp [writeComponents, List.intercalate]
  | cons c rest =>
    rw [writeComponents, writeComponents_succ, intercalate_cons]
    simp

theorem assemble_eq (inchis : Inchis) (first : Bool) (ofs : List Char) :
    assemble inchis first ofs =
      ofs ++ ("RInChI=1.00.1S/".toList
        ++ List.intercalate ['!'] (if first then inchis.reactants else inchis.products)
        ++ "<>".toList
        ++ List.intercalate ['!'] (if first then inchis.products else inchis.reactants)
        ++ "<>".toList
        ++ List.intercalate ['!'] inchis.agents
        ++ "\n".toList) := by
  cases first <;>
    simp [assemble, assembleRun, writeComponents_zero, Inchis.get, Inchis.set, REACTANTS, PRODUCTS,
      AGENTS]

/-- A run that returns true has extracted an identifier for every molecule and
written the assembly of the three sorted vectors after what the stream held. -/
theorem WriteMolecule_true {Mol : Type} (Write : Mol → Option CxxString)
    (pReact : OBReaction Mol) (ofs out : List Char)
    (h : WriteMolecule (some pReact) (some Write) ofs = some (true, out)) :
    ∃ inchis first,
      List.Forall₂ (Extracted Write) pReact.reactants inchis.reactants ∧
      List.Forall₂ (Extracted Write) pReact.products inchis.products ∧
      List.Forall₂ (Extracted Write) pReact.agents inchis.agents ∧
      reactants_first (sortInchis inchis) = some first ∧
      out = assemble (sortInchis inchis) first ofs := by
  simp only [WriteMolecule] at h
  cases he : extractInchis Write pReact with
  | undefined => simp [he] at h
  | returnFalse => simp [he] at h
  | next inchis =>
    simp only [he] at h
    cases hf : reactants_first (sortInchis inchis) with
    | none => simp [hf] at h
    | some first =>
      simp only [hf, Option.some.injEq, Prod.mk.injEq, true_and] at h
      obtain ⟨h1, h2, h3⟩ := extractInchis_next Write pReact inchis he
      exact ⟨inchis, first, h1, h2, h3, hf, h.symm⟩

theorem WriteMolecule_of_extracted {Mol : Type} (Write : Mol → Option CxxString)
    (pReact : OBReaction Mol) (ofs : List Char) (R P A : List CxxString)
    (hR : List.Forall₂ (Extracted Write) pReact.reactants R)
    (hP : List.Forall₂ (Extracted Write) pReact.products P)
    (hA : List.Forall₂ (Extracted Write) pReact.agents A) :
    WriteMolecule (some pReact) (some Write) ofs =
      some (true, assemble (sortInchis ⟨R, P, A⟩) true ofs) := by
  simp only [WriteMolecule, extractInchis_of_forall₂ Write pReact R P A hR hP hA,
    reactants_first_eq]

/-- A run that returns false has left the stream alone. -/
theorem WriteMolecule_false {Mol : Type} (pOb : Option (OBReaction Mol))
    (pInChIFormat : Option (Mol → Option CxxString)) (ofs out : List Char)
    (h : WriteMolecule pOb pInChIFormat ofs = some (false, out)) : out = ofs := by
  unfold WriteMolecule at h
  cases pOb with
  | none => simp at h; exact h.symm
  | some pReact =>
    cases pInChIFormat with
    | none => simp at h; exact h.symm
    | some Write =>
      simp only at h
      cases he : extractInchis Write pReact with
      | undefined => simp [he] at h
      | returnFalse => simp [he] at h; exact h.symm
      | next inchis =>
        simp only [he] at h
        cases hf : reactants_first (sortInchis inchis) with
        | none => simp [hf] at h
        | some first => simp [hf] at h

/-! ## Runs on well-formed adapter output -/

theorem extractInchis_wellFormed {Mol : Type} (Write : Mol → Option CxxString)
    (pReact : OBReaction Mol)
    (hwf : ∀ m ∈ pReact.reactants ++ pReact.products ++ pReact.agents, WellFormed Write m) :
    extractInchis Write pReact =
      if (pReact.reactants.all (fun m => (trimmedOf Write m).isSome) ∧
          pReact.products.all (fun m => (trimmedOf Write m).isSome)) ∧
          pReact.agents.all (fun m => (trimmedOf Write m).isSome) then
        Flow.next ⟨pReact.reactants.filterMap (trimmedOf Write),
          pReact.products.filterMap (trimmedOf Write), pReact.agents.filterMap (trimmedOf Write)⟩
      else Flow.undefined := by
  have hr : ∀ m ∈ pReact.reactants, WellFormed Write m := fun m hm => hwf m (by simp [hm])
  have hp : ∀ m ∈ pReact.products, WellFormed Write m := fun m hm => hwf m (by simp [hm])
  have ha : ∀ m ∈ pReact.agents, WellFormed Write m := fun m hm => hwf m (by simp [hm])
  unfold extractInchis
  rw [extractPart_wellFormed Write _ [] hr, extractPart_wellFormed Write _ [] hp,
    extractPart_wellFormed Write _ [] ha]
  by_cases h1 : pReact.reactants.all (fun m => (trimmedOf Write m).isSome) = true
  · by_cases h2 : pReact.products.all (fun m => (trimmedOf Write m).isSome) = true
    · by_cases h3 : pReact.agents.all (fun m => (trimmedOf Write m).isSome) = true
      · simp [h1, h2, h3]
      · simp [h1, h2, h3]
    · simp [h1, h2]
  · simp [h1]

theorem all_isSome_perm {Mol : Type} (f : Mol → Option CxxString) {l l' : List Mol}
    (h : l'.Perm l) :
    l'.all (fun m => (f m).isSome) = l.all (fun m => (f m).isSome) := by
  rw [Bool.eq_iff_iff]
  simp only [List.all_eq_true]
  exact ⟨fun H m hm => H m (h.symm.subset hm), fun H m hm => H m (h.subset hm)⟩

/-- On well-formed adapter output a run either reads past the terminator of a
bare prefix or writes the three sorted groups, reactants first. -/
theorem WriteMolecule_wellFormed {Mol : Type} (Write : Mol → Option CxxString)
    (pReact : OBReaction Mol) (ofs : List Char)
    (hwf : ∀ m ∈ pReact.reactants ++ pReact.products ++ pReact.agents, WellFormed Write m) :
    WriteMolecule (some pReact) (some Write) ofs =
      if (pReact.reactants.all (fun m => (trimmedOf Write m).isSome) ∧
          pReact.products.all (fun m => (trimmedOf Write m).isSome)) ∧
          pReact.agents.all (fun m => (trimmedOf Write m).isSome) then
        some (true, assemble
          ⟨std_sort (pReact.reactants.filterMap (trimmedOf Write)),
            std_sort (pReact.products.filterMap (trimmedOf Write)),
            std_sort (pReact.agents.filterMap (trimmedOf Write))⟩ true ofs)
      else none := by
  simp only [WriteMolecule, extractInchis_wellFormed Write pReact hwf]
  by_cases hc : (pReact.reactants.all (fun m => (trimmedOf Write m).isSome) ∧
      pReact.products.all (fun m => (trimmedOf Write m).isSome)) ∧
      pReact.agents.all (fun m => (trimmedOf Write m).isSome)
  · rw [if_pos hc, if_pos hc]
    simp only [reactants_first_eq, sortInchis]
  · rw [if_neg hc, if_neg hc]

/-! ## How the extraction loop can end -/

theorem TrimInChI_none (inchi : CxxString) (hpre : inchiPrefix <+: inchi)
    (hT : TrimInChI (c_str inchi) = none) : inchi = inchiPrefix := by
  obtain ⟨t, rfl⟩ := hpre
  have hlen : 9 ≤ (inchiPrefix ++ t).length := by simp [inchiPrefix]
  rw [TrimInChI_c_str _ hlen] at hT
  have hdrop : (inchiPrefix ++ t).drop 9 = t := by
    simp [inchiPrefix]
  rw [hdrop] at hT
  cases t with
  | nil => simp
  | cons c rest => simp at hT

theorem extractPart_cases {Mol : Type} (Write : Mol → Option CxxString) :
    ∀ (mols : List Mol) (acc : List CxxString),
      match extractPart Write mols acc with
      | Flow.undefined => ∃ m ∈ mols, Write m = some inchiPrefix
      | Flow.returnFalse => ∃ m ∈ mols, ¬ WellFormed Write m
      | Flow.next _ => ∀ m ∈ mols, WellFormed Write m := by
  intro mols
  induction mols with
  | nil => intro acc; simp [extractPart]
  | cons mol rest ih =>
    intro acc
    rw [extractPart]
    cases hW : Write mol with
    | none =>
      refine ⟨mol, List.mem_cons_self _ _, ?_⟩
      rintro ⟨inchi, h, _⟩
      simp [hW] at h
    | some inchi =>
      by_cases hpre : strncmp (c_str inchi) (c_str inchiPrefix) 9 = 0
      · have hp := (strncmp_inchiPrefix inchi).1 hpre
        simp only [hpre, ne_eq, not_true_eq_false, if_false]
        cases hT : TrimInChI (c_str inchi) with
        | none =>
          exact ⟨mol, List.mem_cons_self _ _, by rw [hW, TrimInChI_none inchi hp hT]⟩
        | some t =>
          have := ih (acc ++ [t])
          simp only
          cases hrest : extractPart Write rest (acc ++ [t]) with
          | undefined =>
            rw [hrest] at this
            obtain ⟨m, hm, h⟩ := this
            exact ⟨m, List.mem_cons_of_mem _ hm, h⟩
          | returnFalse =>
            rw [hrest] at this
            obtain ⟨m, hm, h⟩ := this
            exact ⟨m, List.mem_cons_of_mem _ hm, h⟩
          | next ids =>
            rw [hrest] at this
            intro m hm
            rcases List.mem_cons.1 hm with rfl | hm
            · exact ⟨inchi, hW, hp⟩
            · exact this m hm
      · simp only [hpre, ne_eq, not_false_eq_true, if_true]
        refine ⟨mol, List.mem_cons_self _ _, ?_⟩
        rintro ⟨inchi', h, hp⟩
        rw [hW] at h
        cases h
        exact hpre ((strncmp_inchiPrefix inchi).2 hp)

theorem extractInchis_cases {Mol : Type} (Write : Mol → Option CxxString)
    (pReact : OBReaction Mol) :
    match extractInchis Write pReact with
    | Flow.undefined =>
      ∃ m ∈ pReact.reactants ++ pReact.products ++ pReact.agents, Write m = some inchiPrefix
    | Flow.returnFalse =>
      ∃ m ∈ pReact.reactants ++ pReact.products ++ pReact.agents, ¬ WellFormed Write m
    | Flow.next _ =>
      ∀ m ∈ pReact.reactants ++ pReact.products ++ pReact.agents, WellFormed Write m := by
  have hr := extractPart_cases Write pReact.reactants []
  have hp := extractPart_cases Write pReact.products []
  have ha := extractPart_cases Write pReact.agents []
  unfold extractInchis
  cases h1 : extractPart Write pReact.reactants [] with
  | undefined =>
    rw [h1] at hr
    obtain ⟨m, hm, h⟩ := hr
    exact ⟨m, by simp [hm], h⟩
  | returnFalse =>
    rw [h1] at hr
    obtain ⟨m, hm, h⟩ := hr
    exact ⟨m, by simp [hm], h⟩
  | next r =>
    rw [h1] at hr
    cases h2 : extractPart Write pReact.products [] with
    | undefined =>
      rw [h2] at hp
      obtain ⟨m, hm, h⟩ := hp
      exact ⟨m, by simp [hm], h⟩
    | returnFalse =>
      rw [h2] at hp
      obtain ⟨m, hm, h⟩ := hp
      exact ⟨m, by simp [hm], h⟩
    | next p =>
      rw [h2] at hp
      cases h3 : extractPart Write pReact.agents [] with
      | undefined =>
        rw [h3] at ha
        obtain ⟨m, hm, h⟩ := ha
        exact ⟨m, by simp [hm], h⟩
      | returnFalse =>
        rw [h3] at ha
        obtain ⟨m, hm, h⟩ := ha
        exact ⟨m, by simp [hm], h⟩
      | next a =>
        rw [h3] at ha
        intro m hm
        simp only [List.mem_append] at hm
        rcases hm with (hm | hm) | hm
        · exact hr m hm
        · exact hp m hm
        · exact ha m hm

/-- When no adapter output is the bare prefix, a run returns false exactly when
some molecule's adapter call fails or its output lacks the prefix. -/
theorem WriteMolecule_false_iff {Mol : Type} (Write : Mol → Option CxxString)
    (pReact : OBReaction Mol) (ofs : List Char)
    (hbare : ∀ m ∈ pReact.reactants ++ pReact.products ++ pReact.agents,
      Write m ≠ some inchiPrefix) :
    WriteMolecule (some pReact) (some Write) ofs = some (false, ofs) ↔
      ∃ m ∈ pReact.reactants ++ pReact.products ++ pReact.agents, ¬ WellFormed Write m := by
  have hc := extractInchis_cases Write pReact
  simp only [WriteMolecule]
  cases he : extractInchis Write pReact with
  | undefined =>
    rw [he] at hc
    obtain ⟨m, hm, h⟩ := hc
    exact absurd h (hbare m hm)
  | returnFalse =>
    rw [he] at hc
    simpa using hc
  | next inchis =>
    rw [he] at hc
    simp only [reactants_first_eq]
    constructor
    · intro h
      simp at h
    · rintro ⟨m, hm, h⟩
      exact absurd (hc m hm) h

/-! ## The claims -/

/-- C1 (side independence) fails on the code.  Methane as the one reactant and
water as the one product, and the same two molecules with the sides exchanged,
are written differently: the group labelled reactants comes first both times,
since `reactants_first` is true in both runs. -/
theorem side_exchange_changes_output :
    WriteMolecule
        (some ⟨["InChI=1S/CH4/h1H4\n".toList], ["InChI=1S/H2O/h1H2\n".toList], []⟩)
        (some some) []
      = some (true, "RInChI=1.00.1S/CH4/h1H4<>H2O/h1H2<>\n".toList) ∧
    WriteMolecule
        (some ⟨["InChI=1S/H2O/h1H2\n".toList], ["InChI=1S/CH4/h1H4\n".toList], []⟩)
        (some some) []
      = some (true, "RInChI=1.00.1S/H2O/h1H2<>CH4/h1H4<>\n".toList) ∧
    reactants_first (sortInchis ⟨["CH4/h1H4".toList], ["H2O/h1H2".toList], []⟩) = some true ∧
    reactants_first (sortInchis ⟨["H2O/h1H2".toList], ["CH4/h1H4".toList], []⟩) = some true ∧
    WriteMolecule
        (some ⟨["InChI=1S/CH4/h1H4\n".toList], ["InChI=1S/H2O/h1H2\n".toList], []⟩)
        (some some) []
      ≠ WriteMolecule
        (some ⟨["InChI=1S/H2O/h1H2\n".toList], ["InChI=1S/CH4/h1H4\n".toList], []⟩)
        (some some) [] := by
  decide

/-- Without memory behind the arrays: when every adapter output of a reaction
begins with the prefix, listing its reactants, its products and its agents in
any other order leaves the result of `WriteMolecule` the same, be it a text or
the lack of a result that a bare prefix brings. -/
theorem order_independence {Mol : Type} (Write : Mol → Option CxxString)
    (pReact pReact' : OBReaction Mol) (ofs : List Char)
    (hwf : ∀ m ∈ pReact.reactants ++ pReact.products ++ pReact.agents, WellFormed Write m)
    (hR : pReact'.reactants.Perm pReact.reactants)
    (hP : pReact'.products.Perm pReact.products)
    (hA : pReact'.agents.Perm pReact.agents) :
    WriteMolecule (some pReact') (some Write) ofs = WriteMolecule (some pReact) (some Write) ofs := by
  have hwf' : ∀ m ∈ pReact'.reactants ++ pReact'.products ++ pReact'.agents,
      WellFormed Write m := by
    intro m hm
    apply hwf
    simp only [List.mem_append] at hm ⊢
    rcases hm with (hm | hm) | hm
    · exact Or.inl (Or.inl (hR.subset hm))
    · exact Or.inl (Or.inr (hP.subset hm))
    · exact Or.inr (hA.subset hm)
  rw [WriteMolecule_wellFormed Write pReact ofs hwf, WriteMolecule_wellFormed Write pReact' ofs hwf',
    all_isSome_perm (trimmedOf Write) hR, all_isSome_perm (trimmedOf Write) hP,
    all_isSome_perm (trimmedOf Write) hA, std_sort_congr (hR.filterMap (trimmedOf Write)),
    std_sort_congr (hP.filterMap (trimmedOf Write)),
    std_sort_congr (hA.filterMap (trimmedOf Write))]

theorem order_independence_witness :
    (∀ m ∈ ["InChI=1S/H2/h1H\n".toList, "InChI=1S/O2/c1-2\n".toList]
        ++ ["InChI=1S/H2O/h1H2\n".toList] ++ ["InChI=1S/Pt\n".toList, "InChI=1S/Pd\n".toList],
      WellFormed some m) ∧
    WriteMolecule
        (some ⟨["InChI=1S/O2/c1-2\n".toList, "InChI=1S/H2/h1H\n".toList],
          ["InChI=1S/H2O/h1H2\n".toList],
          ["InChI=1S/Pd\n".toList, "InChI=1S/Pt\n".toList]⟩) (some some) []
      = WriteMolecule
        (some ⟨["InChI=1S/H2/h1H\n".toList, "InChI=1S/O2/c1-2\n".toList],
          ["InChI=1S/H2O/h1H2\n".toList],
          ["InChI=1S/Pt\n".toList, "InChI=1S/Pd\n".toList]⟩) (some some) [] ∧
    WriteMolecule
        (some ⟨["InChI=1S/H2/h1H\n".toList, "InChI=1S/O2/c1-2\n".toList],
          ["InChI=1S/H2O/h1H2\n".toList],
          ["InChI=1S/Pt\n".toList, "InChI=1S/Pd\n".toList]⟩) (some some) []
      = some (true, "RInChI=1.00.1S/H2/h1H!O2/c1-2<>H2O/h1H2<>Pd!Pt\n".toList) :=
  have hwf : ∀ m ∈ ["InChI=1S/H2/h1H\n".toList, "InChI=1S/O2/c1-2\n".toList]
        ++ ["InChI=1S/H2O/h1H2\n".toList] ++ ["InChI=1S/Pt\n".toList, "InChI=1S/Pd\n".toList],
      WellFormed some m := by
    intro m hm
    exact ⟨m, rfl, by revert m; decide⟩
  ⟨hwf,
    order_independence some
      ⟨["InChI=1S/H2/h1H\n".toList, "InChI=1S/O2/c1-2\n".toList],
        ["InChI=1S/H2O/h1H2\n".toList], ["InChI=1S/Pt\n".toList, "InChI=1S/Pd\n".toList]⟩
      ⟨["InChI=1S/O2/c1-2\n".toList, "InChI=1S/H2/h1H\n".toList],
        ["InChI=1S/H2O/h1H2\n".toList], ["InChI=1S/Pd\n".toList, "InChI=1S/Pt\n".toList]⟩
      [] hwf (List.Perm.swap _ _ _) (List.Perm.refl _) (List.Perm.swap _ _ _),
    by decide⟩

/-- C3 (output layout): a run that returns true has appended to the stream the
header, the sorted identifiers of the side chosen first joined by `!`, `<>`,
those of the other side joined by `!`, `<>`, the sorted agent identifiers joined
by `!`, and one newline, and nothing else; the agents are the third segment
whichever side comes first, and the writing loop adds nothing for an empty
group. -/
theorem output_layout {Mol : Type} (Write : Mol → Option CxxString)
    (pReact : OBReaction Mol) (ofs out : List Char)
    (h : WriteMolecule (some pReact) (some Write) ofs = some (true, out)) :
    (∃ (R P A : List CxxString) (first : Bool),
      List.Forall₂ (Extracted Write) pReact.reactants R ∧
      List.Forall₂ (Extracted Write) pReact.products P ∧
      List.Forall₂ (Extracted Write) pReact.agents A ∧
      reactants_first ⟨std_sort R, std_sort P, std_sort A⟩ = some first ∧
      out = ofs ++ ("RInChI=1.00.1S/".toList
        ++ List.intercalate ['!'] (if first then std_sort R else std_sort P)
        ++ "<>".toList
        ++ List.intercalate ['!'] (if first then std_sort P else std_sort R)
        ++ "<>".toList
        ++ List.intercalate ['!'] (std_sort A)
        ++ "\n".toList)) ∧
    (∀ stream : List Char, writeComponents [] 0 stream = stream) := by
  obtain ⟨inchis, first, hR, hP, hA, hf, hout⟩ := WriteMolecule_true Write pReact ofs out h
  refine ⟨⟨inchis.reactants, inchis.products, inchis.agents, first, hR, hP, hA, hf, ?_⟩,
    fun _ => rfl⟩
  rw [hout, assemble_eq]
  rfl

theorem output_layout_witness :
    WriteMolecule
        (some ⟨["InChI=1S/O2/c1-2\n".toList, "InChI=1S/H2/h1H\n".toList],
          ["InChI=1S/H2O/h1H2\n".toList], []⟩) (some some) "# ".toList
      = some (true, "# RInChI=1.00.1S/H2/h1H!O2/c1-2<>H2O/h1H2<>\n".toList) ∧
    ((∃ (R P A : List CxxString) (first : Bool),
      List.Forall₂ (Extracted some)
        ["InChI=1S/O2/c1-2\n".toList, "InChI=1S/H2/h1H\n".toList] R ∧
      List.Forall₂ (Extracted some) ["InChI=1S/H2O/h1H2\n".toList] P ∧
      List.Forall₂ (Extracted some) [] A ∧
      reactants_first ⟨std_sort R, std_sort P, std_sort A⟩ = some first ∧
      "# RInChI=1.00.1S/H2/h1H!O2/c1-2<>H2O/h1H2<>\n".toList = "# ".toList ++ ("RInChI=1.00.1S/".toList
        ++ List.intercalate ['!'] (if first then std_sort R else std_sort P)
        ++ "<>".toList
        ++ List.intercalate ['!'] (if first then std_sort P else std_sort R)
        ++ "<>".toList
        ++ List.intercalate ['!'] (std_sort A)
        ++ "\n".toList)) ∧
    (∀ stream : List Char, writeComponents [] 0 stream = stream)) :=
  ⟨by decide,
    output_layout some
      ⟨["InChI=1S/O2/c1-2\n".toList, "InChI=1S/H2/h1H\n".toList],
        ["InChI=1S/H2O/h1H2\n".toList], []⟩
      "# ".toList "# RInChI=1.00.1S/H2/h1H!O2/c1-2<>H2O/h1H2<>\n".toList (by decide)⟩

/-- C4 (direction rule) fails on the code.  For the sorted groups of methane as
reactant and water as product the loop of lines 166-184 leaves `reactants_first`
true, while the reference race stops at its first comparison with false. -/
theorem direction_loop_differs_from_reference_race :
    reactants_first (sortInchis ⟨["CH4/h1H4".toList], ["H2O/h1H2".toList], []⟩) = some true ∧
    referenceRace (std_sort ["CH4/h1H4".toList]) (std_sort ["H2O/h1H2".toList]) = false ∧
    WriteMolecule
        (some ⟨["InChI=1S/CH4/h1H4\n".toList], ["InChI=1S/H2O/h1H2\n".toList], []⟩)
        (some some) []
      = some (true, "RInChI=1.00.1S/CH4/h1H4<>H2O/h1H2<>\n".toList) := by
  decide

/-- C5 (scenario A) as stated fails on the code: for ethanol as the one reactant
and acetaldehyde as the one product `reactants_first` is not false, and the text
with the product first is not what is written. -/
theorem scenario_A_not_products_first :
    reactants_first
        (sortInchis ⟨["C2H6O/c1-2-3/h3H,2H2,1H3".toList], ["C2H4O/c1-2-3/h2H,1H3".toList], []⟩)
      ≠ some false ∧
    WriteMolecule
        (some ⟨["InChI=1S/C2H6O/c1-2-3/h3H,2H2,1H3".toList],
          ["InChI=1S/C2H4O/c1-2-3/h2H,1H3".toList], []⟩) (some some) []
      ≠ some (true,
          "RInChI=1.00.1S/C2H4O/c1-2-3/h2H,1H3<>C2H6O/c1-2-3/h3H,2H2,1H3<>\n".toList) := by
  decide

/-- C5 (scenario A) as amended: for ethanol as the one reactant and acetaldehyde
as the one product, no agents, `WriteMolecule` extracts the two bodies, leaves
`reactants_first` true and writes the reactant before the product. -/
theorem scenario_A_reactants_first :
    extractInchis some
        (⟨["InChI=1S/C2H6O/c1-2-3/h3H,2H2,1H3".toList],
          ["InChI=1S/C2H4O/c1-2-3/h2H,1H3".toList], []⟩ : OBReaction CxxString)
      = Flow.next
          ⟨["C2H6O/c1-2-3/h3H,2H2,1H3".toList], ["C2H4O/c1-2-3/h2H,1H3".toList], []⟩ ∧
    reactants_first
        (sortInchis ⟨["C2H6O/c1-2-3/h3H,2H2,1H3".toList], ["C2H4O/c1-2-3/h2H,1H3".toList], []⟩)
      = some true ∧
    WriteMolecule
        (some ⟨["InChI=1S/C2H6O/c1-2-3/h3H,2H2,1H3".toList],
          ["InChI=1S/C2H4O/c1-2-3/h2H,1H3".toList], []⟩) (some some) []
      = some (true,
          "RInChI=1.00.1S/C2H6O/c1-2-3/h3H,2H2,1H3<>C2H4O/c1-2-3/h2H,1H3<>\n".toList) := by
  decide

/-- The comparison of line 178 and the reference race both keep
`reactants_first` true on the groups of scenario A, whatever the cursors. -/
theorem scenario_A_comparisons :
    string_lt "C2H6O/c1-2-3/h3H,2H2,1H3".toList "C2H4O/c1-2-3/h2H,1H3".toList = false ∧
    referenceRace ["C2H6O/c1-2-3/h3H,2H2,1H3".toList] ["C2H4O/c1-2-3/h2H,1H3".toList] = true := by
  decide

/-- Without memory behind the arrays: with a first reactant whose adapter output
is the bare prefix, `TrimInChI` reads past the terminator of that output before
the offending molecule is reached, and the language gives the run no result. -/
theorem bare_prefix_before_offending_molecule :
    TrimInChI (c_str "InChI=1S/".toList) = none ∧
    WriteMolecule (some ⟨[some "InChI=1S/".toList], [none], []⟩) (some id) [] = none ∧
    WriteMolecule (some ⟨["InChI=1S/".toList], ["InChI=1/H2O/h1H2\n".toList], []⟩)
        (some some) [] = none ∧
    ¬ WellFormed id (none : Option CxxString) ∧
    ¬ WellFormed some "InChI=1/H2O/h1H2\n".toList := by
  refine ⟨by decide, by decide, by decide, ?_, ?_⟩
  · rintro ⟨inchi, h, _⟩
    cases h
  · rintro ⟨inchi, h, hp⟩
    cases h
    revert hp
    decide

/-- C7 (atomicity on failure): whenever `WriteMolecule` returns false, the
output stream is what it was before the call. -/
theorem failure_leaves_stream_untouched {Mol : Type} (pOb : Option (OBReaction Mol))
    (pInChIFormat : Option (Mol → Option CxxString)) (ofs : List Char)
    (h : (WriteMolecule pOb pInChIFormat ofs).map Prod.fst = some false) :
    WriteMolecule pOb pInChIFormat ofs = some (false, ofs) := by
  cases hw : WriteMolecule pOb pInChIFormat ofs with
  | none => simp [hw] at h
  | some res =>
    obtain ⟨ret, out⟩ := res
    simp only [hw, Option.map_some', Option.some.injEq] at h
    subst h
    rw [WriteMolecule_false pOb pInChIFormat ofs out hw]

theorem failure_leaves_stream_untouched_witness :
    (WriteMolecule
        (some ⟨["InChI=1S/H2/h1H\n".toList, "InChI=1S/O2/c1-2\n".toList],
          ["InChI=1S/H2O/h1H2\n".toList],
          ["InChI=1S/Pt\n".toList, "InChI=1/Pd\n".toList]⟩) (some some) "# ".toList).map Prod.fst
      = some false ∧
    WriteMolecule
        (some ⟨["InChI=1S/H2/h1H\n".toList, "InChI=1S/O2/c1-2\n".toList],
          ["InChI=1S/H2O/h1H2\n".toList],
          ["InChI=1S/Pt\n".toList, "InChI=1/Pd\n".toList]⟩) (some some) "# ".toList
      = some (false, "# ".toList) :=
  ⟨by decide,
    failure_leaves_stream_untouched
      (some ⟨["InChI=1S/H2/h1H\n".toList, "InChI=1S/O2/c1-2\n".toList],
        ["InChI=1S/H2O/h1H2\n".toList],
        ["InChI=1S/Pt\n".toList, "InChI=1/Pd\n".toList]⟩) (some some) "# ".toList (by decide)⟩

/-- C8 (trim) fails on the code.  For the prefix followed by a newline
`TrimInChI` returns the newline, and for the bare prefix it reads past the
terminator; the trim of the claim is empty in both cases. -/
theorem TrimInChI_copies_first_character_untested :
    TrimInChI (c_str "InChI=1S/\n".toList) = some "\n".toList ∧
    trimSpec "InChI=1S/\n".toList = [] ∧
    TrimInChI (c_str "InChI=1S/".toList) = none ∧
    trimSpec "InChI=1S/".toList = [] := by
  decide

/-- C9 (single-line output) fails on the code.  A reactant whose adapter output
is the prefix followed by a newline gets the identifier made of that newline,
and the text written holds two newline characters. -/
theorem newline_identifier_gives_two_lines :
    extractInchis some (⟨["InChI=1S/\n".toList], [], []⟩ : OBReaction CxxString)
      = Flow.next ⟨["\n".toList], [], []⟩ ∧
    WriteMolecule (some ⟨["InChI=1S/\n".toList], [], []⟩) (some some) []
      = some (true, "RInChI=1.00.1S/\n<><>\n".toList) ∧
    List.count '\n' "RInChI=1.00.1S/\n<><>\n".toList = 2 := by
  decide

/-- C10 (canonical groups): a run that returns true has written three groups, of
which the reactant group, the product group and the agent group are each a
rearrangement of the identifiers extracted for that role, in ascending order,
with as many elements as the role has molecules; the first two segments are the
reactant and the product group in one order or the other and the third is the
agent group; agents with the bodies `X` and `X` give the agent segment `X!X`. -/
theorem canonical_groups {Mol : Type} (Write : Mol → Option CxxString)
    (pReact : OBReaction Mol) (ofs out : List Char)
    (h : WriteMolecule (some pReact) (some Write) ofs = some (true, out)) :
    ∃ (R P A gR gP gA first second : List CxxString),
      List.Forall₂ (Extracted Write) pReact.reactants R ∧
      List.Forall₂ (Extracted Write) pReact.products P ∧
      List.Forall₂ (Extracted Write) pReact.agents A ∧
      (gR.Perm R ∧ gR.Sorted string_le ∧ gR.length = pReact.reactants.length) ∧
      (gP.Perm P ∧ gP.Sorted string_le ∧ gP.length = pReact.products.length) ∧
      (gA.Perm A ∧ gA.Sorted string_le ∧ gA.length = pReact.agents.length) ∧
      ((first = gR ∧ second = gP) ∨ (first = gP ∧ second = gR)) ∧
      out = ofs ++ ("RInChI=1.00.1S/".toList
        ++ List.intercalate ['!'] first ++ "<>".toList
        ++ List.intercalate ['!'] second ++ "<>".toList
        ++ List.intercalate ['!'] gA ++ "\n".toList) ∧
      (A = ["X".toList, "X".toList] → List.intercalate ['!'] gA = "X!X".toList) := by
  obtain ⟨inchis, first, hR, hP, hA, -, hout⟩ := WriteMolecule_true Write pReact ofs out h
  refine ⟨inchis.reactants, inchis.products, inchis.agents, std_sort inchis.reactants,
    std_sort inchis.products, std_sort inchis.agents,
    if first then std_sort inchis.reactants else std_sort inchis.products,
    if first then std_sort inchis.products else std_sort inchis.reactants,
    hR, hP, hA,
    ⟨std_sort_perm _, std_sort_sorted _, (std_sort_length _).trans hR.length_eq.symm⟩,
    ⟨std_sort_perm _, std_sort_sorted _, (std_sort_length _).trans hP.length_eq.symm⟩,
    ⟨std_sort_perm _, std_sort_sorted _, (std_sort_length _).trans hA.length_eq.symm⟩,
    ?_, ?_, ?_⟩
  · cases first
    · exact Or.inr ⟨rfl, rfl⟩
    · exact Or.inl ⟨rfl, rfl⟩
  · rw [hout, assemble_eq]
    rfl
  · intro hX
    rw [hX]
    decide

theorem canonical_groups_witness :
    WriteMolecule
        (some ⟨["InChI=1S/O2/c1-2\n".toList, "InChI=1S/H2/h1H\n".toList, "InChI=1S/H2/h1H\n".toList],
          ["InChI=1S/H2O/h1H2\n".toList, "InChI=1S/H2O/h1H2\n".toList],
          ["InChI=1S/X".toList, "InChI=1S/X".toList]⟩) (some some) []
      = some (true, "RInChI=1.00.1S/H2/h1H!H2/h1H!O2/c1-2<>H2O/h1H2!H2O/h1H2<>X!X\n".toList) ∧
    ∃ (R P A gR gP gA first second : List CxxString),
      List.Forall₂ (Extracted some)
        ["InChI=1S/O2/c1-2\n".toList, "InChI=1S/H2/h1H\n".toList, "InChI=1S/H2/h1H\n".toList] R ∧
      List.Forall₂ (Extracted some)
        ["InChI=1S/H2O/h1H2\n".toList, "InChI=1S/H2O/h1H2\n".toList] P ∧
      List.Forall₂ (Extracted some) ["InChI=1S/X".toList, "InChI=1S/X".toList] A ∧
      (gR.Perm R ∧ gR.Sorted string_le ∧ gR.length = 3) ∧
      (gP.Perm P ∧ gP.Sorted string_le ∧ gP.length = 2) ∧
      (gA.Perm A ∧ gA.Sorted string_le ∧ gA.length = 2) ∧
      ((first = gR ∧ second = gP) ∨ (first = gP ∧ second = gR)) ∧
      "RInChI=1.00.1S/H2/h1H!H2/h1H!O2/c1-2<>H2O/h1H2!H2O/h1H2<>X!X\n".toList
        = [] ++ ("RInChI=1.00.1S/".toList
        ++ List.intercalate ['!'] first ++ "<>".toList
        ++ List.intercalate ['!'] second ++ "<>".toList
        ++ List.intercalate ['!'] gA ++ "\n".toList) ∧
      (A = ["X".toList, "X".toList] → List.intercalate ['!'] gA = "X!X".toList) :=
  ⟨by decide,
    canonical_groups some
      ⟨["InChI=1S/O2/c1-2\n".toList, "InChI=1S/H2/h1H\n".toList, "InChI=1S/H2/h1H\n".toList],
        ["InChI=1S/H2O/h1H2\n".toList, "InChI=1S/H2O/h1H2\n".toList],
        ["InChI=1S/X".toList, "InChI=1S/X".toList]⟩ []
      "RInChI=1.00.1S/H2/h1H!H2/h1H!O2/c1-2<>H2O/h1H2!H2O/h1H2<>X!X\n".toList (by decide)⟩

/-! ## The recorded loops -/

/-- The recorded loop of `TrimInChI` builds the string the plain loop builds. -/
theorem TrimInChI.loopTested_fst :
    ∀ (l : List Char) (p : Nat) (trimmed : CxxString) (tested : List Nat),
      (TrimInChI.loopTested l p trimmed tested).map Prod.fst = TrimInChI.loop l trimmed
  | [], _, _, _ => rfl
  | [_], _, _, _ => rfl
  | c :: d :: rest, p, trimmed, tested => by
    rw [TrimInChI.loopTested, TrimInChI.loop]
    by_cases hd : d = '\n' ∨ d = NUL
    · rw [if_pos hd, if_pos hd]
      rfl
    · rw [if_neg hd, if_neg hd]
      exact TrimInChI.loopTested_fst (d :: rest) (p + 1) (trimmed ++ [c]) (tested ++ [p + 1])

/-- Every position the recorded loop tests lies after `p` and inside the array. -/
theorem TrimInChI.loopTested_bounds :
    ∀ (l : List Char) (p : Nat) (trimmed : CxxString) (tested : List Nat)
      (res : CxxString × List Nat),
      TrimInChI.loopTested l p trimmed tested = some res →
        ∀ q ∈ res.2, q ∈ tested ∨ (p + 1 ≤ q ∧ q < p + l.length)
  | [], _, _, _, _, h => by simp [TrimInChI.loopTested] at h
  | [_], _, _, _, _, h => by simp [TrimInChI.loopTested] at h
  | c :: d :: rest, p, trimmed, tested, res, h => by
    rw [TrimInChI.loopTested] at h
    intro q hq
    by_cases hd : d = '\n' ∨ d = NUL
    · rw [if_pos hd] at h
      cases h
      rcases List.mem_append.1 hq with hq | hq
      · exact Or.inl hq
      · right
        simp only [List.mem_singleton] at hq
        subst hq
        simp
    · rw [if_neg hd] at h
      have ih := TrimInChI.loopTested_bounds (d :: rest) (p + 1) (trimmed ++ [c])
        (tested ++ [p + 1]) res h q hq
      rcases ih with ih | ih
      · rcases List.mem_append.1 ih with hq' | hq'
        · exact Or.inl hq'
        · right
          simp only [List.mem_singleton] at hq'
          subst hq'
          simp
      · right
        simp only [List.length_cons] at ih ⊢
        omega

/-- The recorded direction loop returns what the plain loop returns. -/
theorem directionLoopTraced_fst (products : List CxxString) :
    ∀ (reactants : List CxxString) (product_it iterations : Nat) (reads : List Nat),
      (directionLoopTraced products reactants product_it iterations reads).1 =
        directionLoop products reactants product_it := by
  intro reactants
  induction reactants with
  | nil => intro _ _ _; rfl
  | cons r rest ih =>
    intro product_it iterations reads
    rw [directionLoopTraced, directionLoop]
    by_cases hend : product_it = products.length
    · rw [if_pos hend, if_pos hend]
    · rw [if_neg hend, if_neg hend]
      cases hp : products[product_it]? with
      | none => rfl
      | some product =>
        simp only
        by_cases hlt : string_lt r product = true
        · rw [if_pos hlt, if_pos hlt]
        · rw [if_neg hlt, if_neg hlt]
          exact ih (product_it + 1) (iterations + 1) (reads ++ [product_it])

/-- From its start state the direction loop ends in its first iteration and
reads no product. -/
theorem directionLoopTraced_start (products reactants : List CxxString) :
    directionLoopTraced products reactants products.length 0 [] = (some true, 1, []) := by
  cases reactants with
  | nil => simp [directionLoopTraced]
  | cons r rest => simp [directionLoopTraced]

/-! ## Counting separators -/

theorem count_separated (rest : List CxxString) (hrest : ∀ s ∈ rest, '!' ∉ s) :
    ((rest.map (fun c => '!' :: c)).flatten).count '!' = rest.length := by
  induction rest with
  | nil => rfl
  | cons c rest ih =>
    have hc : c.count '!' = 0 := List.count_eq_zero.2 (hrest c (List.mem_cons_self _ _))
    have ih' := ih (fun s hs => hrest s (List.mem_cons_of_mem _ hs))
    simp only [List.map_cons, List.flatten_cons, List.count_append, List.count_cons_self, hc, ih',
      List.length_cons]
    omega

/-- A group none of whose identifiers holds a `!` is joined by one `!` fewer than
it has identifiers. -/
theorem count_intercalate (g : List CxxString) (hg : ∀ s ∈ g, '!' ∉ s) :
    (List.intercalate ['!'] g).count '!' = g.length - 1 := by
  cases g with
  | nil => rfl
  | cons c rest =>
    have hc : c.count '!' = 0 := List.count_eq_zero.2 (hg c (List.mem_cons_self _ _))
    rw [intercalate_cons, List.count_append, hc,
      count_separated rest (fun s hs => hg s (List.mem_cons_of_mem _ hs))]
    simp

/-! ## The claims, continued -/

/-- C11 (separator counting) as stated fails on the code: a group of one
identifier that holds a `!` itself is written with one `!`, not with none. -/
theorem separator_count_with_bang_in_identifier :
    WriteMolecule (some ⟨["InChI=1S/a!b\n".toList], [], []⟩) (some some) []
      = some (true, "RInChI=1.00.1S/a!b<><>\n".toList) ∧
    writeComponents ["a!b".toList] 0 [] = "a!b".toList ∧
    List.count '!' (writeComponents ["a!b".toList] 0 []) = 1 ∧
    List.count '!' (writeComponents ["a!b".toList] 0 []) ≠ ["a!b".toList].length - 1 := by
  decide

/-- C11 (separator counting) as amended: for a group of N identifiers none of
which holds a `!`, what the writing loop appends to the stream for the group
holds exactly N - 1 characters `!` when N is at least 1, and none when N is 0. -/
theorem separator_count (g : List CxxString) (ofs : List Char) (hg : ∀ s ∈ g, '!' ∉ s) :
    ∃ segment : List Char,
      writeComponents g 0 ofs = ofs ++ segment ∧
      (1 ≤ g.length → segment.count '!' + 1 = g.length) ∧
      (g.length = 0 → segment.count '!' = 0) := by
  refine ⟨List.intercalate ['!'] g, writeComponents_zero g ofs, ?_, ?_⟩
  · intro h1
    rw [count_intercalate g hg]
    omega
  · intro h0
    rw [count_intercalate g hg]
    omega

theorem separator_count_witness :
    (∀ s ∈ ["H2/h1H".toList, "H2/h1H".toList, "O2/c1-2".toList], '!' ∉ s) ∧
    ∃ segment : List Char,
      writeComponents ["H2/h1H".toList, "H2/h1H".toList, "O2/c1-2".toList] 0 "RInChI=1.00.1S/".toList
        = "RInChI=1.00.1S/".toList ++ segment ∧
      (1 ≤ ["H2/h1H".toList, "H2/h1H".toList, "O2/c1-2".toList].length →
        segment.count '!' + 1 = ["H2/h1H".toList, "H2/h1H".toList, "O2/c1-2".toList].length) ∧
      (["H2/h1H".toList, "H2/h1H".toList, "O2/c1-2".toList].length = 0 →
        segment.count '!' = 0) :=
  ⟨by decide,
    separator_count ["H2/h1H".toList, "H2/h1H".toList, "O2/c1-2".toList]
      "RInChI=1.00.1S/".toList (by decide)⟩

theorem std_sort_singleton (t : CxxString) : std_sort [t] = [t] := rfl

/-- C12 (scenario B): for a reaction with exactly one reactant and exactly one
product whose extracted identifiers are the same, and agents that all yield an
identifier, `WriteMolecule` leaves `reactants_first` true, returns true and
writes the identifier taken from the reactant before the first `<>` and the one
taken from the product after it. -/
theorem scenario_B {Mol : Type} (Write : Mol → Option CxxString) (pReact : OBReaction Mol)
    (ofs : List Char) (mR mP : Mol) (tR tP : CxxString) (A : List CxxString)
    (hR : pReact.reactants = [mR]) (hP : pReact.products = [mP])
    (hmR : Extracted Write mR tR) (hmP : Extracted Write mP tP) (hsame : tR = tP)
    (hA : List.Forall₂ (Extracted Write) pReact.agents A) :
    extractInchis Write pReact = Flow.next ⟨[tR], [tP], A⟩ ∧
    reactants_first (sortInchis ⟨[tR], [tP], A⟩) = some true ∧
    WriteMolecule (some pReact) (some Write) ofs =
      some (true, ofs ++ ("RInChI=1.00.1S/".toList ++ tR ++ "<>".toList ++ tP ++ "<>".toList
        ++ List.intercalate ['!'] (std_sort A) ++ "\n".toList)) := by
  subst hsame
  have hR' : List.Forall₂ (Extracted Write) pReact.reactants [tR] := by
    rw [hR]
    exact List.Forall₂.cons hmR List.Forall₂.nil
  have hP' : List.Forall₂ (Extracted Write) pReact.products [tR] := by
    rw [hP]
    exact List.Forall₂.cons hmP List.Forall₂.nil
  refine ⟨extractInchis_of_forall₂ Write pReact _ _ _ hR' hP' hA, reactants_first_eq _, ?_⟩
  rw [WriteMolecule_of_extracted Write pReact ofs [tR] [tR] A hR' hP' hA, assemble_eq]
  simp [sortInchis, std_sort_singleton, List.intercalate]

theorem scenario_B_witness :
    Extracted some "InChI=1S/H2O/h1H2\n".toList "H2O/h1H2".toList ∧
    extractInchis some
        (⟨["InChI=1S/H2O/h1H2\n".toList], ["InChI=1S/H2O/h1H2\n".toList], []⟩ :
          OBReaction CxxString)
      = Flow.next ⟨["H2O/h1H2".toList], ["H2O/h1H2".toList], []⟩ ∧
    reactants_first (sortInchis ⟨["H2O/h1H2".toList], ["H2O/h1H2".toList], []⟩) = some true ∧
    WriteMolecule
        (some ⟨["InChI=1S/H2O/h1H2\n".toList], ["InChI=1S/H2O/h1H2\n".toList], []⟩)
        (some some) [] =
      some (true, [] ++ ("RInChI=1.00.1S/".toList ++ "H2O/h1H2".toList ++ "<>".toList
        ++ "H2O/h1H2".toList ++ "<>".toList
        ++ List.intercalate ['!'] (std_sort []) ++ "\n".toList)) :=
  have hx : Extracted some "InChI=1S/H2O/h1H2\n".toList "H2O/h1H2".toList :=
    ⟨"InChI=1S/H2O/h1H2\n".toList, rfl, by decide, by decide⟩
  ⟨hx,
    scenario_B some
      ⟨["InChI=1S/H2O/h1H2\n".toList], ["InChI=1S/H2O/h1H2\n".toList], []⟩ []
      "InChI=1S/H2O/h1H2\n".toList "InChI=1S/H2O/h1H2\n".toList
      "H2O/h1H2".toList "H2O/h1H2".toList [] rfl rfl hx hx rfl List.Forall₂.nil⟩

/-- C13 (empty reaction): for a reaction with no reactants, no products and no
agents `WriteMolecule` returns true and writes exactly `RInChI=1.00.1S/<><>` and
a newline, whatever the adapter is. -/
theorem empty_reaction {Mol : Type} (Write : Mol → Option CxxString) (ofs : List Char) :
    WriteMolecule (some ⟨[], [], []⟩) (some Write) ofs
      = some (true, ofs ++ "RInChI=1.00.1S/<><>\n".toList) ∧
    WriteMolecule (some ⟨[], [], []⟩) (some Write) [] = some (true, "RInChI=1.00.1S/<><>\n".toList) := by
  have h : ∀ stream : List Char, WriteMolecule (some ⟨[], [], []⟩) (some Write) stream
      = some (true, stream ++ "RInChI=1.00.1S/<><>\n".toList) := by
    intro stream
    rw [WriteMolecule_of_extracted Write ⟨[], [], []⟩ stream [] [] [] List.Forall₂.nil
      List.Forall₂.nil List.Forall₂.nil, assemble_eq]
    rfl
  exact ⟨h ofs, h []⟩

/-- C14 (idempotence of sorting): sorting a sorted group again returns the same
sequence, and sorting a group that is already in ascending order returns it
unchanged. -/
theorem sort_idempotent (g w : List CxxString) (hw : w.Sorted string_le) :
    std_sort (std_sort g) = std_sort g ∧ std_sort w = w :=
  ⟨List.Sorted.insertionSort_eq (std_sort_sorted g), List.Sorted.insertionSort_eq hw⟩

theorem sort_idempotent_witness :
    List.Sorted string_le ["H2/h1H".toList, "H2/h1H".toList, "O2/c1-2".toList] ∧
    std_sort (std_sort ["O2/c1-2".toList, "H2/h1H".toList, "H2/h1H".toList])
      = std_sort ["O2/c1-2".toList, "H2/h1H".toList, "H2/h1H".toList] ∧
    std_sort ["H2/h1H".toList, "H2/h1H".toList, "O2/c1-2".toList]
      = ["H2/h1H".toList, "H2/h1H".toList, "O2/c1-2".toList] :=
  ⟨by decide,
    sort_idempotent ["O2/c1-2".toList, "H2/h1H".toList, "H2/h1H".toList]
      ["H2/h1H".toList, "H2/h1H".toList, "O2/c1-2".toList] (by decide)⟩

/-- Whatever the character at index 9 of a string of at least ten characters is,
`TrimInChI` returns a string that starts with it. -/
theorem TrimInChI_head (t : CxxString) (ht : 10 ≤ t.length) :
    (TrimInChI (c_str t)).map List.head? = some t[9]? := by
  rw [TrimInChI_c_str t (by omega)]
  cases hd : t.drop 9 with
  | nil =>
    have := congrArg List.length hd
    simp only [List.length_drop, List.length_nil] at this
    omega
  | cons c rest =>
    have h9 : t[9]? = some c := by
      have := congrArg List.head? hd
      rw [List.head?_drop] at this
      simpa using this
    simp [h9]

/-- C15 (direction loop as coded): started where lines 167-168 put the two
cursors, the loop of lines 169-184 ends in its first iteration and reads no
product element, whatever the two groups are; so `reactants_first` is true on
every input, and every run that returns true has written the sorted reactant
group before the first `<>` and the sorted product group after it. -/
theorem direction_loop_as_coded {Mol : Type} (Write : Mol → Option CxxString)
    (pReact : OBReaction Mol) (ofs out : List Char)
    (h : WriteMolecule (some pReact) (some Write) ofs = some (true, out)) :
    (∀ inchis : Inchis,
      directionLoopTraced inchis.products inchis.reactants inchis.products.length 0 []
        = (some true, 1, []) ∧
      reactants_first inchis
        = (directionLoopTraced inchis.products inchis.reactants inchis.products.length 0 []).1 ∧
      reactants_first inchis = some true) ∧
    ∃ R P A : List CxxString,
      List.Forall₂ (Extracted Write) pReact.reactants R ∧
      List.Forall₂ (Extracted Write) pReact.products P ∧
      List.Forall₂ (Extracted Write) pReact.agents A ∧
      out = ofs ++ ("RInChI=1.00.1S/".toList
        ++ List.intercalate ['!'] (std_sort R) ++ "<>".toList
        ++ List.intercalate ['!'] (std_sort P) ++ "<>".toList
        ++ List.intercalate ['!'] (std_sort A) ++ "\n".toList) := by
  refine ⟨fun inchis => ⟨directionLoopTraced_start _ _, ?_, reactants_first_eq inchis⟩, ?_⟩
  · rw [directionLoopTraced_fst]
    rfl
  · obtain ⟨inchis, first, hR, hP, hA, hf, hout⟩ := WriteMolecule_true Write pReact ofs out h
    rw [reactants_first_eq] at hf
    cases hf
    refine ⟨inchis.reactants, inchis.products, inchis.agents, hR, hP, hA, ?_⟩
    rw [hout, assemble_eq]
    rfl

theorem direction_loop_as_coded_witness :
    WriteMolecule
        (some ⟨["InChI=1S/CH4/h1H4\n".toList, "InChI=1S/O2/c1-2\n".toList],
          ["InChI=1S/H2O/h1H2\n".toList, "InChI=1S/CO2/c2-1-3\n".toList], []⟩)
        (some some) []
      = some (true, "RInChI=1.00.1S/CH4/h1H4!O2/c1-2<>CO2/c2-1-3!H2O/h1H2<>\n".toList) ∧
    (∀ inchis : Inchis,
      directionLoopTraced inchis.products inchis.reactants inchis.products.length 0 []
        = (some true, 1, []) ∧
      reactants_first inchis
        = (directionLoopTraced inchis.products inchis.reactants inchis.products.length 0 []).1 ∧
      reactants_first inchis = some true) ∧
    ∃ R P A : List CxxString,
      List.Forall₂ (Extracted some)
        ["InChI=1S/CH4/h1H4\n".toList, "InChI=1S/O2/c1-2\n".toList] R ∧
      List.Forall₂ (Extracted some)
        ["InChI=1S/H2O/h1H2\n".toList, "InChI=1S/CO2/c2-1-3\n".toList] P ∧
      List.Forall₂ (Extracted some) [] A ∧
      "RInChI=1.00.1S/CH4/h1H4!O2/c1-2<>CO2/c2-1-3!H2O/h1H2<>\n".toList
        = [] ++ ("RInChI=1.00.1S/".toList
        ++ List.intercalate ['!'] (std_sort R) ++ "<>".toList
        ++ List.intercalate ['!'] (std_sort P) ++ "<>".toList
        ++ List.intercalate ['!'] (std_sort A) ++ "\n".toList) :=
  ⟨by decide,
    direction_loop_as_coded some
      ⟨["InChI=1S/CH4/h1H4\n".toList, "InChI=1S/O2/c1-2\n".toList],
        ["InChI=1S/H2O/h1H2\n".toList, "InChI=1S/CO2/c2-1-3\n".toList], []⟩ []
      "RInChI=1.00.1S/CH4/h1H4!O2/c1-2<>CO2/c2-1-3!H2O/h1H2<>\n".toList (by decide)⟩

/-- C16 (`TrimInChI` in bounds): for a string without `'\0'` of at least ten
characters that begins with the prefix and has no newline at index 9,
the test of line 155 lets it through and `TrimInChI` on its array returns the
characters from index 9 up to the first newline or the end; the test of line 106 only reads positions from 10 up to the
terminating `'\0'` at most, so nothing past the terminator is read; and the
character at index 9 is copied, being no tested position, whatever it is. -/
theorem TrimInChI_in_bounds (s : CxxString) (hnul : NUL ∉ s) (hlen : 10 ≤ s.length)
    (hpre : inchiPrefix <+: s) (h9 : s[9]? ≠ some '\n') :
    strncmp (c_str s) (c_str inchiPrefix) 9 = 0 ∧
    TrimInChI (c_str s) = some (trimSpec s) ∧
    (∃ tested : List Nat,
      TrimInChI.loopTested ((c_str s).drop 9) 9 [] [] = some (trimSpec s, tested) ∧
      ∀ q ∈ tested, 10 ≤ q ∧ q ≤ s.length) ∧
    (trimSpec s).head? = s[9]? ∧
    (∀ t : CxxString, 10 ≤ t.length → (TrimInChI (c_str t)).map List.head? = some t[9]?) := by
  have hT : TrimInChI (c_str s) = some (trimSpec s) := by
    cases hd : s.drop 9 with
    | nil =>
      have := congrArg List.length hd
      simp only [List.length_drop, List.length_nil] at this
      omega
    | cons c rest =>
      have hc9 : s[9]? = some c := by
        have := congrArg List.head? hd
        rw [List.head?_drop] at this
        simpa using this
      have hc : c ≠ '\n' := by
        intro hc
        apply h9
        rw [hc9, hc]
      have hrest : NUL ∉ rest := by
        intro hmem
        apply hnul
        have : NUL ∈ s.drop 9 := by
          rw [hd]
          exact List.mem_cons_of_mem _ hmem
        exact List.mem_of_mem_drop this
      exact TrimInChI_eq_trimSpec s c rest hd hc hrest
  refine ⟨(strncmp_inchiPrefix s).2 hpre, hT, ?_, ?_, TrimInChI_head⟩
  · have hfst := TrimInChI.loopTested_fst ((c_str s).drop 9) 9 [] []
    have hT' : TrimInChI.loop ((c_str s).drop 9) [] = some (trimSpec s) := hT
    rw [hT'] at hfst
    cases hres : TrimInChI.loopTested ((c_str s).drop 9) 9 [] [] with
    | none => simp [hres] at hfst
    | some res =>
      obtain ⟨r, tested⟩ := res
      simp only [hres, Option.map_some', Option.some.injEq] at hfst
      subst hfst
      refine ⟨tested, rfl, ?_⟩
      intro q hq
      have hb := TrimInChI.loopTested_bounds _ _ _ _ _ hres q hq
      rcases hb with hb | hb
      · simp at hb
      · have hl : ((c_str s).drop 9).length = s.length + 1 - 9 := by
          simp [c_str]
        rw [hl] at hb
        omega
  · have hh := TrimInChI_head s hlen
    rw [hT] at hh
    simpa using hh

theorem TrimInChI_in_bounds_witness :
    NUL ∉ "InChI=1S/C2H6O/c1-2-3/h3H,2H2,1H3\n".toList ∧
    TrimInChI (c_str "InChI=1S/C2H6O/c1-2-3/h3H,2H2,1H3\n".toList)
      = some "C2H6O/c1-2-3/h3H,2H2,1H3".toList ∧
    (strncmp (c_str "InChI=1S/C2H6O/c1-2-3/h3H,2H2,1H3\n".toList) (c_str inchiPrefix) 9 = 0 ∧
    TrimInChI (c_str "InChI=1S/C2H6O/c1-2-3/h3H,2H2,1H3\n".toList)
      = some (trimSpec "InChI=1S/C2H6O/c1-2-3/h3H,2H2,1H3\n".toList) ∧
    (∃ tested : List Nat,
      TrimInChI.loopTested ((c_str "InChI=1S/C2H6O/c1-2-3/h3H,2H2,1H3\n".toList).drop 9) 9 [] []
        = some (trimSpec "InChI=1S/C2H6O/c1-2-3/h3H,2H2,1H3\n".toList, tested) ∧
      ∀ q ∈ tested, 10 ≤ q ∧ q ≤ "InChI=1S/C2H6O/c1-2-3/h3H,2H2,1H3\n".toList.length) ∧
    (trimSpec "InChI=1S/C2H6O/c1-2-3/h3H,2H2,1H3\n".toList).head?
      = "InChI=1S/C2H6O/c1-2-3/h3H,2H2,1H3\n".toList[9]? ∧
    (∀ t : CxxString, 10 ≤ t.length → (TrimInChI (c_str t)).map List.head? = some t[9]?)) :=
  ⟨by decide, by decide,
    TrimInChI_in_bounds "InChI=1S/C2H6O/c1-2-3/h3H,2H2,1H3\n".toList
      (by decide) (by decide) (by decide) (by decide)⟩

/-- C17 (second-segment assignment): the assignment of line 194 stores the other
group in the vector `rxn_components` is bound to, so that when line 207 is
reached both side vectors hold the other group and the group written first is
no longer in `inchis`, while the agent vector is as it was; the text written is
all the same the group chosen first as it was before the assignment, `<>`, the
other group, `<>`, and the agent group. -/
theorem second_segment_assignment (inchis : Inchis) (first : Bool) (ofs : List Char) :
    (assembleRun inchis first ofs).1.reactants
      = (if first then inchis.products else inchis.reactants) ∧
    (assembleRun inchis first ofs).1.products
      = (if first then inchis.products else inchis.reactants) ∧
    (assembleRun inchis first ofs).1.agents = inchis.agents ∧
    assemble inchis first ofs = (assembleRun inchis first ofs).2 ∧
    (assembleRun inchis first ofs).2 =
      ofs ++ ("RInChI=1.00.1S/".toList
        ++ List.intercalate ['!'] (if first then inchis.reactants else inchis.products)
        ++ "<>".toList
        ++ List.intercalate ['!'] (if first then inchis.products else inchis.reactants)
        ++ "<>".toList
        ++ List.intercalate ['!'] inchis.agents
        ++ "\n".toList) := by
  refine ⟨?_, ?_, ?_, rfl, assemble_eq inchis first ofs⟩
  · cases first <;> rfl
  · cases first <;> rfl
  · cases first <;> rfl

/-! ## Runs with the memory behind the terminator given -/

theorem takeWhile_append_terminator (l m : List Char) :
    (l ++ NUL :: m).takeWhile copied = l.takeWhile copied := by
  induction l with
  | nil => rw [List.nil_append, List.takeWhile_cons_of_neg (terminator_neg (Or.inr rfl))]; rfl
  | cons x xs ih =>
    by_cases hx : x = '\n' ∨ x = NUL
    · rw [List.cons_append, List.takeWhile_cons_of_neg (terminator_neg hx),
        List.takeWhile_cons_of_neg (terminator_neg hx)]
    · rw [List.cons_append, List.takeWhile_cons_of_pos (terminator_pos hx),
        List.takeWhile_cons_of_pos (terminator_pos hx), ih]

/-- With memory behind the array `TrimInChI` always returns: for a string of
more than nine characters what it returns on the array alone, for the bare nine
characters the terminator and what the memory holds up to its first `'\n'` or
`'\0'`. -/
theorem TrimInChI_memory (s : CxxString) (b : List Char) (h : 9 ≤ s.length) :
    TrimInChI (c_str s ++ b ++ [NUL]) =
      some (match s.drop 9 with
        | [] => NUL :: b.takeWhile copied
        | c :: rest => c :: rest.takeWhile copied) := by
  have hmem : c_str s ++ b ++ [NUL] = s ++ (NUL :: (b ++ [NUL])) := by simp [c_str]
  have hdrop : (c_str s ++ b ++ [NUL]).drop 9 = s.drop 9 ++ (NUL :: (b ++ [NUL])) := by
    rw [hmem]
    exact List.drop_append_of_le_length h
  unfold TrimInChI
  rw [hdrop]
  cases hs : s.drop 9 with
  | nil =>
    have hex : ∃ d ∈ b ++ [NUL], d = '\n' ∨ d = NUL := ⟨NUL, by simp, Or.inr rfl⟩
    rw [List.nil_append, TrimInChI.loop_eq NUL (b ++ [NUL]) [] hex, takeWhile_append_NUL]
    rfl
  | cons c rest =>
    have hex : ∃ d ∈ rest ++ NUL :: (b ++ [NUL]), d = '\n' ∨ d = NUL :=
      ⟨NUL, by simp, Or.inr rfl⟩
    rw [List.cons_append, TrimInChI.loop_eq c (rest ++ NUL :: (b ++ [NUL])) [] hex,
      takeWhile_append_terminator]
    rfl

/-- What `TrimInChI` returns without leaving the array it returns whatever the
memory behind the array holds. -/
theorem TrimInChI_memory_of_some (s t : CxxString) (b : List Char)
    (h : TrimInChI (c_str s) = some t) : TrimInChI (c_str s ++ b ++ [NUL]) = some t := by
  by_cases h9 : 9 ≤ s.length
  · rw [TrimInChI_c_str s h9] at h
    rw [TrimInChI_memory s b h9]
    cases hs : s.drop 9 with
    | nil => simp [hs] at h
    | cons c rest =>
      simp only [hs] at h
      exact h
  · have hdrop : (c_str s).drop 9 = [] := by
      apply List.drop_of_length_le
      simp only [c_str, List.length_append, List.length_singleton]
      omega
    simp [TrimInChI, hdrop, TrimInChI.loop] at h

theorem extractPartIn_eq {Mol : Type} (beyond : List Mol → CxxString → List Char)
    (Write : Mol → Option CxxString) :
    ∀ (mols earlier : List Mol) (acc : List CxxString),
      extractPart Write mols acc ≠ Flow.undefined →
        extractPartIn beyond Write mols earlier acc = extractPart Write mols acc := by
  intro mols
  induction mols with
  | nil => intro _ _ _; rfl
  | cons mol rest ih =>
    intro earlier acc h
    rw [extractPart] at h ⊢
    rw [extractPartIn]
    cases hW : Write mol with
    | none => rfl
    | some inchi =>
      simp only [hW] at h ⊢
      by_cases hpre : strncmp (c_str inchi) (c_str inchiPrefix) 9 = 0
      · simp only [hpre, ne_eq, not_true_eq_false, if_false] at h ⊢
        cases hT : TrimInChI (c_str inchi) with
        | none => simp [hT] at h
        | some t =>
          simp only [hT] at h ⊢
          rw [TrimInChI_memory_of_some inchi t _ hT]
          exact ih _ _ h
      · simp only [hpre, ne_eq, not_false_eq_true, if_true]

theorem extractInchisIn_eq {Mol : Type} (beyond : List Mol → CxxString → List Char)
    (Write : Mol → Option CxxString) (pReact : OBReaction Mol)
    (h : extractInchis Write pReact ≠ Flow.undefined) :
    extractInchisIn beyond Write pReact = extractInchis Write pReact := by
  unfold extractInchis at h ⊢
  unfold extractInchisIn
  cases h1 : extractPart Write pReact.reactants [] with
  | undefined => simp [h1] at h
  | returnFalse => rw [extractPartIn_eq beyond Write _ _ _ (by simp [h1]), h1]
  | next r =>
    rw [extractPartIn_eq beyond Write _ _ _ (by simp [h1]), h1]
    simp only [h1] at h ⊢
    cases h2 : extractPart Write pReact.products [] with
    | undefined => simp [h2] at h
    | returnFalse => rw [extractPartIn_eq beyond Write _ _ _ (by simp [h2]), h2]
    | next p =>
      rw [extractPartIn_eq beyond Write _ _ _ (by simp [h2]), h2]
      simp only [h2] at h ⊢
      cases h3 : extractPart Write pReact.agents [] with
      | undefined => simp [h3] at h
      | returnFalse => rw [extractPartIn_eq beyond Write _ _ _ (by simp [h3]), h3]
      | next a => rw [extractPartIn_eq beyond Write _ _ _ (by simp [h3]), h3]

/-- Every result `WriteMolecule` has without a read outside an array is the
result of the run whatever the memory holds. -/
theorem WriteMoleculeIn_of_WriteMolecule {Mol : Type}
    (beyond : List Mol → CxxString → List Char) (pOb : Option (OBReaction Mol))
    (pInChIFormat : Option (Mol → Option CxxString)) (ofs : List Char)
    (res : Bool × List Char) (h : WriteMolecule pOb pInChIFormat ofs = some res) :
    WriteMoleculeIn beyond pOb pInChIFormat ofs = some res := by
  cases pOb with
  | none => exact h
  | some pReact =>
    cases pInChIFormat with
    | none => exact h
    | some Write =>
      have hne : extractInchis Write pReact ≠ Flow.undefined := by
        intro hu
        simp [WriteMolecule, hu] at h
      simp only [WriteMoleculeIn, extractInchisIn_eq beyond Write pReact hne]
      exact h

/-- The store of line 194 seen on two groups that differ: after the run the
reactant vector holds the product group. -/
theorem assembleRun_overwrites_first_group :
    (assembleRun ⟨["CH4/h1H4".toList], ["H2O/h1H2".toList], ["Pt".toList]⟩ true []).1
      = ⟨["H2O/h1H2".toList], ["H2O/h1H2".toList], ["Pt".toList]⟩ ∧
    (assembleRun ⟨["CH4/h1H4".toList], ["H2O/h1H2".toList], ["Pt".toList]⟩ true []).2
      = "RInChI=1.00.1S/CH4/h1H4<>H2O/h1H2<>Pt\n".toList := by
  decide

theorem offending_iff {Mol : Type} (Write : Mol → Option CxxString) (mol : Mol) :
    Offending Write mol ↔ ¬ WellFormed Write mol := by
  unfold Offending WellFormed
  cases hW : Write mol with
  | none => simp
  | some inchi => simp

theorem nine_le_length (inchi : CxxString) (hp : inchiPrefix <+: inchi) : 9 ≤ inchi.length := by
  obtain ⟨t, rfl⟩ := hp
  simp [inchiPrefix]

theorem extractPartIn_cases {Mol : Type} (beyond : List Mol → CxxString → List Char)
    (Write : Mol → Option CxxString) :
    ∀ (mols earlier : List Mol) (acc : List CxxString),
      match extractPartIn beyond Write mols earlier acc with
      | Flow.undefined => False
      | Flow.returnFalse => ∃ m ∈ mols, Offending Write m
      | Flow.next _ => ∀ m ∈ mols, ¬ Offending Write m := by
  intro mols
  induction mols with
  | nil => intro earlier acc; simp [extractPartIn]
  | cons mol rest ih =>
    intro earlier acc
    rw [extractPartIn]
    cases hW : Write mol with
    | none => exact ⟨mol, List.mem_cons_self _ _, Or.inl hW⟩
    | some inchi =>
      by_cases hpre : strncmp (c_str inchi) (c_str inchiPrefix) 9 = 0
      · have hp := (strncmp_inchiPrefix inchi).1 hpre
        simp only [hpre, ne_eq, not_true_eq_false, if_false]
        cases hT : TrimInChI (c_str inchi ++ beyond earlier inchi ++ [NUL]) with
        | none =>
          rw [TrimInChI_memory inchi _ (nine_le_length inchi hp)] at hT
          cases hT
        | some t =>
          have := ih (earlier ++ [mol]) (acc ++ [t])
          simp only
          cases hrest : extractPartIn beyond Write rest (earlier ++ [mol]) (acc ++ [t]) with
          | undefined =>
            rw [hrest] at this
            exact this
          | returnFalse =>
            rw [hrest] at this
            obtain ⟨m, hm, h⟩ := this
            exact ⟨m, List.mem_cons_of_mem _ hm, h⟩
          | next ids =>
            rw [hrest] at this
            intro m hm
            rcases List.mem_cons.1 hm with rfl | hm
            · rw [offending_iff]
              exact not_not.2 ⟨inchi, hW, hp⟩
            · exact this m hm
      · simp only [hpre, ne_eq, not_false_eq_true, if_true]
        refine ⟨mol, List.mem_cons_self _ _, Or.inr ⟨inchi, hW, ?_⟩⟩
        intro hp
        exact hpre ((strncmp_inchiPrefix inchi).2 hp)

theorem extractInchisIn_cases {Mol : Type} (beyond : List Mol → CxxString → List Char)
    (Write : Mol → Option CxxString) (pReact : OBReaction Mol) :
    match extractInchisIn beyond Write pReact with
    | Flow.undefined => False
    | Flow.returnFalse =>
      ∃ m ∈ pReact.reactants ++ pReact.products ++ pReact.agents, Offending Write m
    | Flow.next _ =>
      ∀ m ∈ pReact.reactants ++ pReact.products ++ pReact.agents, ¬ Offending Write m := by
  have hr := extractPartIn_cases beyond Write pReact.reactants [] []
  have hp := extractPartIn_cases beyond Write pReact.products pReact.reactants []
  have ha := extractPartIn_cases beyond Write pReact.agents
    (pReact.reactants ++ pReact.products) []
  unfold extractInchisIn
  cases h1 : extractPartIn beyond Write pReact.reactants [] [] with
  | undefined => rw [h1] at hr; exact hr
  | returnFalse =>
    rw [h1] at hr
    obtain ⟨m, hm, h⟩ := hr
    exact ⟨m, by simp [hm], h⟩
  | next r =>
    rw [h1] at hr
    cases h2 : extractPartIn beyond Write pReact.products pReact.reactants [] with
    | undefined => rw [h2] at hp; exact hp
    | returnFalse =>
      rw [h2] at hp
      obtain ⟨m, hm, h⟩ := hp
      exact ⟨m, by simp [hm], h⟩
    | next p =>
      rw [h2] at hp
      cases h3 : extractPartIn beyond Write pReact.agents
          (pReact.reactants ++ pReact.products) [] with
      | undefined => rw [h3] at ha; exact ha
      | returnFalse =>
        rw [h3] at ha
        obtain ⟨m, hm, h⟩ := ha
        exact ⟨m, by simp [hm], h⟩
      | next a =>
        rw [h3] at ha
        intro m hm
        simp only [List.mem_append] at hm
        rcases hm with (hm | hm) | hm
        · exact hr m hm
        · exact hp m hm
        · exact ha m hm

/-- C6 (failure condition): given a reaction and an adapter, and whatever the
memory behind the terminators holds, `WriteMolecule` returns false, with the
stream as it was, if and only if some molecule among the reactants, products or
agents is an offending one (its adapter call fails or its output does not begin
with the nine characters of the prefix); otherwise it returns true; an output
of fewer than nine characters makes its molecule an offending one; and every
result `WriteMolecule` has without a read outside an array obeys the same
rule. -/
theorem failure_condition {Mol : Type} (beyond : List Mol → CxxString → List Char)
    (Write : Mol → Option CxxString) (pReact : OBReaction Mol) (ofs : List Char) :
    (WriteMoleculeIn beyond (some pReact) (some Write) ofs = some (false, ofs) ↔
      ∃ m ∈ pReact.reactants ++ pReact.products ++ pReact.agents, Offending Write m) ∧
    ((WriteMoleculeIn beyond (some pReact) (some Write) ofs).map Prod.fst = some false ↔
      ∃ m ∈ pReact.reactants ++ pReact.products ++ pReact.agents, Offending Write m) ∧
    ((WriteMoleculeIn beyond (some pReact) (some Write) ofs).map Prod.fst = some true ↔
      ¬ ∃ m ∈ pReact.reactants ++ pReact.products ++ pReact.agents, Offending Write m) ∧
    (∀ (m : Mol) (inchi : CxxString), Write m = some inchi → inchi.length < 9 →
      Offending Write m) ∧
    (∀ res : Bool × List Char, WriteMolecule (some pReact) (some Write) ofs = some res →
      (res = (false, ofs) ↔
        ∃ m ∈ pReact.reactants ++ pReact.products ++ pReact.agents, Offending Write m)) := by
  have hplain : ∀ res : Bool × List Char,
      WriteMolecule (some pReact) (some Write) ofs = some res →
      (res = (false, ofs) ↔
        ∃ m ∈ pReact.reactants ++ pReact.products ++ pReact.agents, Offending Write m) := by
    intro res hres
    have hc := extractInchis_cases Write pReact
    simp only [WriteMolecule] at hres
    cases he : extractInchis Write pReact with
    | undefined => simp [he] at hres
    | returnFalse =>
      rw [he] at hc
      simp only [he, Option.some.injEq] at hres
      subst hres
      obtain ⟨m, hm, h⟩ := hc
      exact ⟨fun _ => ⟨m, hm, (offending_iff Write m).2 h⟩, fun _ => rfl⟩
    | next inchis =>
      rw [he] at hc
      simp only [he, reactants_first_eq, Option.some.injEq] at hres
      subst hres
      constructor
      · intro h
        simp at h
      · rintro ⟨m, hm, h⟩
        exact absurd (hc m hm) ((offending_iff Write m).1 h)
  have hc := extractInchisIn_cases beyond Write pReact
  have hshort : ∀ (m : Mol) (inchi : CxxString), Write m = some inchi → inchi.length < 9 →
      Offending Write m := by
    intro m inchi hW hlt
    refine Or.inr ⟨inchi, hW, ?_⟩
    intro hp
    have := nine_le_length inchi hp
    omega
  simp only [WriteMoleculeIn]
  cases he : extractInchisIn beyond Write pReact with
  | undefined =>
    rw [he] at hc
    exact hc.elim
  | returnFalse =>
    rw [he] at hc
    refine ⟨?_, ?_, ?_, hshort, hplain⟩
    · simpa using hc
    · simpa using hc
    · simpa using hc
  | next inchis =>
    rw [he] at hc
    simp only [reactants_first_eq]
    refine ⟨?_, ?_, ?_, hshort, hplain⟩
    · constructor
      · intro h
        simp at h
      · rintro ⟨m, hm, h⟩
        exact absurd h (hc m hm)
    · constructor
      · intro h
        simp at h
      · rintro ⟨m, hm, h⟩
        exact absurd h (hc m hm)
    · constructor
      · intro _
        rintro ⟨m, hm, h⟩
        exact hc m hm h
      · intro _
        rfl

/-- The bare prefix in front of an offending molecule, in a run with memory: the
identifier of the first reactant is taken from what lies behind its terminator,
and the run returns false at the product with nothing written. -/
theorem failure_after_bare_prefix :
    WriteMoleculeIn (fun _ _ => "BCDE".toList)
        (some ⟨[some "InChI=1S/".toList], [none], []⟩) (some id) "# ".toList
      = some (false, "# ".toList) ∧
    WriteMoleculeIn sameBuffer
        (some ⟨["InChI=1S/".toList], ["InChI=1/H2O/h1H2\n".toList], []⟩) (some some) []
      = some (false, []) := by
  decide

/-- C2 (order independence) fails on the code.  Both adapter outputs below begin
with the prefix.  The second is the bare prefix: `TrimInChI` reads past its
terminator, for which the language gives the run no result in either order,
and where each output lies in the buffer of the one before, the identifier
taken for it holds what the earlier output left there, so that the two orders
of the same two reactants are written differently. -/
theorem bare_prefix_breaks_order_independence :
    WellFormed some "InChI=1S/ABCDE".toList ∧
    WellFormed some "InChI=1S/".toList ∧
    WriteMoleculeIn sameBuffer
        (some ⟨["InChI=1S/ABCDE".toList, "InChI=1S/".toList], [], []⟩) (some some) []
      = some (true, "RInChI=1.00.1S/".toList ++ NUL :: "BCDE!ABCDE<><>\n".toList) ∧
    WriteMoleculeIn sameBuffer
        (some ⟨["InChI=1S/".toList, "InChI=1S/ABCDE".toList], [], []⟩) (some some) []
      = some (true, "RInChI=1.00.1S/".toList ++ NUL :: "!ABCDE<><>\n".toList) ∧
    WriteMoleculeIn sameBuffer
        (some ⟨["InChI=1S/ABCDE".toList, "InChI=1S/".toList], [], []⟩) (some some) []
      ≠ WriteMoleculeIn sameBuffer
        (some ⟨["InChI=1S/".toList, "InChI=1S/ABCDE".toList], [], []⟩) (some some) [] ∧
    WriteMolecule
        (some ⟨["InChI=1S/ABCDE".toList, "InChI=1S/".toList], [], []⟩) (some some) [] = none ∧
    WriteMolecule
        (some ⟨["InChI=1S/".toList, "InChI=1S/ABCDE".toList], [], []⟩) (some some) [] = none :=
  ⟨⟨_, rfl, by decide⟩, ⟨_, rfl, by decide⟩, by decide, by decide, by decide, by decide,
    by decide⟩

/-- In a run with memory, when no adapter output is the bare prefix, the order of
the molecules within each role does not change the result, which is the one
`WriteMolecule` has without memory. -/
theorem order_independence_in_memory {Mol : Type}
    (beyond beyond' : List Mol → CxxString → List Char) (Write : Mol → Option CxxString)
    (pReact pReact' : OBReaction Mol) (ofs : List Char)
    (hwf : ∀ m ∈ pReact.reactants ++ pReact.products ++ pReact.agents, WellFormed Write m)
    (hbare : ∀ m ∈ pReact.reactants ++ pReact.products ++ pReact.agents,
      Write m ≠ some inchiPrefix)
    (hR : pReact'.reactants.Perm pReact.reactants)
    (hP : pReact'.products.Perm pReact.products)
    (hA : pReact'.agents.Perm pReact.agents) :
    ∃ out, WriteMoleculeIn beyond (some pReact) (some Write) ofs = some (true, out) ∧
      WriteMoleculeIn beyond' (some pReact') (some Write) ofs = some (true, out) := by
  have hc := extractInchis_cases Write pReact
  have hord := order_independence Write pReact pReact' ofs hwf hR hP hA
  have hex : ∃ out, WriteMolecule (some pReact) (some Write) ofs = some (true, out) := by
    simp only [WriteMolecule]
    cases he : extractInchis Write pReact with
    | undefined =>
      rw [he] at hc
      obtain ⟨m, hm, h⟩ := hc
      exact absurd h (hbare m hm)
    | returnFalse =>
      rw [he] at hc
      obtain ⟨m, hm, h⟩ := hc
      exact absurd (hwf m hm) h
    | next inchis =>
      simp only [reactants_first_eq]
      exact ⟨_, rfl⟩
  obtain ⟨out, hout⟩ := hex
  refine ⟨out, WriteMoleculeIn_of_WriteMolecule beyond _ _ _ _ hout, ?_⟩
  apply WriteMoleculeIn_of_WriteMolecule
  rw [hord]
  exact hout

end OpenBabel
